import Mathlib

set_option maxHeartbeats 1000000

/-!
Verification of the inverse-kinematics control core of the robot-arm-viewer
repository, a shallow embedding of URDFIKControls.js: the chain builder
buildIKChain, the CCD solver SimpleIKSolver and the interaction controller
URDFIKControls. External collaborators (three.js transform math, raycasting,
mesh geometry, Math.sqrt and Math.acos) enter as oracle parameters, mirroring
the calls the source makes into them. Machine floats are modelled as exact
rationals.
-/

/-- Rational 3-vector standing in for THREE.Vector3. -/
structure V3 where
  x : ℚ
  y : ℚ
  z : ℚ
deriving DecidableEq

def V3.add (a b : V3) : V3 := ⟨a.x + b.x, a.y + b.y, a.z + b.z⟩

def V3.sub (a b : V3) : V3 := ⟨a.x - b.x, a.y - b.y, a.z - b.z⟩

def V3.smul (c : ℚ) (v : V3) : V3 := ⟨c * v.x, c * v.y, c * v.z⟩

def V3.dot (a b : V3) : ℚ := a.x * b.x + a.y * b.y + a.z * b.z

def V3.cross (a b : V3) : V3 :=
  ⟨a.y * b.z - a.z * b.y, a.z * b.x - a.x * b.z, a.x * b.y - a.y * b.x⟩

def V3.lenSq (v : V3) : ℚ := V3.dot v v

/-- External scalar math the source reaches through Vector3.length,
Vector3.normalize and Math.acos. -/
structure NumOracle where
  sqrt : ℚ → ℚ
  acos : ℚ → ℚ

/-- Vector3.length: sqrt of the squared length. -/
def vlen (O : NumOracle) (v : V3) : ℚ := O.sqrt v.lenSq

/-- Vector3.distanceTo. -/
def vdist (O : NumOracle) (a b : V3) : ℚ := O.sqrt (V3.lenSq (V3.sub a b))

/-- Vector3.normalize: divide by the length. -/
def normalizeV (O : NumOracle) (v : V3) : V3 := V3.smul (1 / vlen O v) v

/-- Math.sign. -/
def signQ (q : ℚ) : ℚ := if 0 < q then 1 else if q < 0 then -1 else 0

/-- Math.max lo (Math.min hi x), the clamping idiom used throughout the solver. -/
def clampQ (lo hi x : ℚ) : ℚ := max lo (min hi x)

def setFn (f : Nat → ℚ) (i : Nat) (v : ℚ) : Nat → ℚ :=
  fun j => if j = i then v else f j

def setOpt (f : Nat → Option ℚ) (i : Nat) (v : ℚ) : Nat → Option ℚ :=
  fun j => if j = i then some v else f j

def setOptV (f : Nat → Option V3) (i : Nat) (v : V3) : Nat → Option V3 :=
  fun j => if j = i then some v else f j

/-- URDF joint types. -/
inductive JointKind where
  | revolute
  | continuous
  | prismatic
  | planar
  | floating
  | fixed
deriving DecidableEq

structure Limit where
  lower : ℚ
  upper : ℚ
deriving DecidableEq

/-- One scene-graph node: a URDF joint when isJoint is true, otherwise a link
or any other scene object. The parent pointer is an index into the node list;
the scene root has no parent. -/
structure Node where
  parent? : Option Nat
  isJoint : Bool
  kind : JointKind
  axis? : Option V3
  limit? : Option Limit
deriving DecidableEq

def parentOf (t : List Node) (i : Nat) : Option Nat := t[i]?.bind Node.parent?

def kindOf (t : List Node) (i : Nat) : Option JointKind := t[i]?.map Node.kind

def axisOf (t : List Node) (i : Nat) : Option V3 := t[i]?.bind Node.axis?

def limitOf (t : List Node) (i : Nat) : Option Limit := t[i]?.bind Node.limit?

/-- Test isURDFJoint with jointType other than fixed, the movable-joint test
used by findAllMovableJoints, hasMovableChildren and buildIKChain. -/
def isMovableNode : Option Node → Bool
  | some n => n.isJoint && !(n.kind == JointKind.fixed)
  | none => false

/-- Test for the two kinds the CCD sweep actually rotates. -/
def isRotB : Option JointKind → Bool
  | some JointKind.revolute => true
  | some JointKind.continuous => true
  | _ => false

/-- The list of nodes visited by repeatedly following parent pointers, fuelled
to keep the walk total; the cursor node itself comes first. -/
def ancestorsFrom (t : List Node) : Nat → Option Nat → List Nat
  | _, none => []
  | 0, some _ => []
  | fuel + 1, some i => i :: ancestorsFrom t fuel (parentOf t i)

/-- Proper ancestors of node i, starting at its parent. -/
def properAncestorsOf (t : List Node) (i : Nat) : List Nat :=
  ancestorsFrom t t.length (parentOf t i)

/-- Decidable well-formedness of the scene tree: every parent pointer goes to
a strictly smaller index, which rules out cycles. -/
def wfParentB (t : List Node) : Bool :=
  (List.range t.length).all fun i =>
    match parentOf t i with
    | some p => decide (p < i)
    | none => true

/-- findAllMovableJoints from the source: all joints in the tree whose type is
not fixed. The source collects them in traversal order; only membership is
used, so index order is kept here. -/
def findAllMovableJoints (t : List Node) : List Nat :=
  (List.range t.length).filter fun i => isMovableNode t[i]?

/-- hasMovableChildren from the source: some strict descendant of the joint is
a movable joint. Descendants are recovered from parent pointers. -/
def hasMovableChildren (t : List Node) (j : Nat) : Bool :=
  (List.range t.length).any fun i =>
    !(i == j) && isMovableNode t[i]? && (properAncestorsOf t i).contains j

/-- One entry of an IK chain, as pushed by buildIKChain. -/
structure ChainEntry where
  joint : Nat
  originalAngle : ℚ
deriving DecidableEq

/-- The while loop of buildIKChain: while the cursor exists and has a parent,
prepend the cursor when it is a movable joint and move to the parent. The
recursion appends at the tail after the recursive call, which realises the
unshift order: root first. -/
def chainWalk (t : List Node) (ang : Nat → ℚ) : Nat → Option Nat → List ChainEntry
  | _, none => []
  | 0, some _ => []
  | fuel + 1, some i =>
    match t[i]? with
    | none => []
    | some n =>
      match n.parent? with
      | none => []
      | some p =>
        chainWalk t ang fuel (some p) ++
          (if n.isJoint && !(n.kind == JointKind.fixed) then [⟨i, ang i⟩] else [])

/-- The initial cursor of buildIKChain: the end effector itself when
includeEndEffector is set, otherwise its parent. -/
def startCursor (t : List Node) (endEffector : Nat) (includeEndEffector : Bool) : Option Nat :=
  if includeEndEffector then some endEffector else parentOf t endEffector

/-- buildIKChain from the source, with the current joint angles supplied as a
function so that originalAngle snapshots the angle at build time. -/
def buildIKChain (t : List Node) (ang : Nat → ℚ) (endEffector : Nat)
    (includeEndEffector : Bool) : List ChainEntry :=
  chainWalk t ang t.length (startCursor t endEffector includeEndEffector)

/-- External world queries of the solver: forward kinematics of the scene as a
function of the current joint angles. worldPos is getWorldPosition, localToWorld
and transformDir are the corresponding Object3D operations on a given node,
worldDir is getWorldDirection (already normalized by three.js), calcEndPoint is
the calculateEndPoint scan over external mesh geometry. -/
structure World where
  worldPos : (Nat → ℚ) → Nat → V3
  localToWorld : (Nat → ℚ) → Nat → V3 → V3
  transformDir : (Nat → ℚ) → Nat → V3 → V3
  worldDir : (Nat → ℚ) → Nat → V3
  calcEndPoint : (Nat → ℚ) → Nat → V3

/-- The nominal effector of a solver: a joint index together with the cached
endPoint field when one has been stored on the joint. -/
structure Effector where
  idx : Nat
  endPoint? : Option V3
deriving DecidableEq

/-- Solver constants from the SimpleIKSolver constructor. -/
def tolerance : ℚ := 1/100

def maxIterations : Nat := 15

def dampingFactor : ℚ := 1/2

def maxAngleChangePerIteration : ℚ := 3/20

def smoothingFactor : ℚ := 3/10

def orientationWeight : ℚ := 3/10

/-- getEffectorEndPoint: the stored end point transformed to world space when
available, otherwise the world position of the effector joint itself. -/
def getEffectorEndPoint (W : World) (eff : Effector) (ang : Nat → ℚ) : V3 :=
  match eff.endPoint? with
  | some e => W.localToWorld ang eff.idx e
  | none => W.worldPos ang eff.idx

/-- Mutable solver state: the joint angles of the robot and the previousAngles
map (none models a joint never stored in the Map). -/
structure SolverSt where
  angles : Nat → ℚ
  prev : Nat → Option ℚ

/-- The fixed data of one solve call: oracles, the scene tree, the effector and
the target world position read once at entry. -/
structure SolveCtx where
  O : NumOracle
  W : World
  tree : List Node
  eff : Effector
  targetPos : V3

def effPos (c : SolveCtx) (st : SolverSt) : V3 := getEffectorEndPoint c.W c.eff st.angles

def jointPosOf (c : SolveCtx) (st : SolverSt) (i : Nat) : V3 := c.W.worldPos st.angles i

def toEffector (c : SolveCtx) (st : SolverSt) (i : Nat) : V3 :=
  V3.sub (effPos c st) (jointPosOf c st i)

def toTarget (c : SolveCtx) (st : SolverSt) (i : Nat) : V3 :=
  V3.sub c.targetPos (jointPosOf c st i)

def teNorm (c : SolveCtx) (st : SolverSt) (i : Nat) : V3 := normalizeV c.O (toEffector c st i)

def ttNorm (c : SolveCtx) (st : SolverSt) (i : Nat) : V3 := normalizeV c.O (toTarget c st i)

/-- The clamped dot product fed to Math.acos. -/
def ccdDot (c : SolveCtx) (st : SolverSt) (i : Nat) : ℚ :=
  clampQ (-1) 1 (V3.dot (teNorm c st i) (ttNorm c st i))

def ccdAngle (c : SolveCtx) (st : SolverSt) (i : Nat) : ℚ := c.O.acos (ccdDot c st i)

/-- The joint-local axis, defaulting to local Z when the joint has none. -/
def localAxis (c : SolveCtx) (i : Nat) : V3 := (axisOf c.tree i).getD ⟨0, 0, 1⟩

/-- The joint axis in world space: transformDirection by the world matrix,
then normalize. -/
def axisWorld (c : SolveCtx) (st : SolverSt) (i : Nat) : V3 :=
  normalizeV c.O (c.W.transformDir st.angles i (localAxis c i))

/-- The rotation direction: the sign of the cross of the two normalized
vectors dotted with the world axis. -/
def ccdDirection (c : SolveCtx) (st : SolverSt) (i : Nat) : ℚ :=
  signQ (V3.dot (V3.cross (teNorm c st i) (ttNorm c st i)) (axisWorld c st i))

/-- The raw damped angle delta, clamped in magnitude to
maxAngleChangePerIteration. -/
def rawDelta (c : SolveCtx) (st : SolverSt) (i : Nat) : ℚ :=
  clampQ (-maxAngleChangePerIteration) maxAngleChangePerIteration
    (ccdDirection c st i * ccdAngle c st i * dampingFactor)

/-- Clamp a value into the limit range when a limit with positive range is
present; otherwise leave it unchanged. This is the guarded clamp the source
repeats at each of its three limit sites. -/
def applyLimit (l? : Option Limit) (x : ℚ) : ℚ :=
  match l? with
  | none => x
  | some l => if l.upper - l.lower > 0 then clampQ l.lower l.upper x else x

/-- The limit-clamped target angle of the sweep. -/
def ccdTargetAngle (c : SolveCtx) (st : SolverSt) (i : Nat) : ℚ :=
  applyLimit (limitOf c.tree i) (st.angles i + rawDelta c st i)

/-- The JavaScript expression previousAngles.get(joint) or-else joint.angle:
an absent entry falls back to the current angle, and so does a stored value of
exactly zero, because zero is falsy. -/
def effPrevAngle (st : SolverSt) (i : Nat) : ℚ :=
  match st.prev i with
  | some p => if p = 0 then st.angles i else p
  | none => st.angles i

/-- The smoothed interpolation from the previous angle toward the target
angle. -/
def smoothedAngle (c : SolveCtx) (st : SolverSt) (i : Nat) : ℚ :=
  effPrevAngle st i + (ccdTargetAngle c st i - effPrevAngle st i) * smoothingFactor

/-- The value actually passed to setJointValue: the smoothed angle clamped to
the limits a second time. -/
def ccdNewAngle (c : SolveCtx) (st : SolverSt) (i : Nat) : ℚ :=
  applyLimit (limitOf c.tree i) (smoothedAngle c st i)

/-- One iteration of the inner CCD loop body on one chain entry; the second
component of the accumulator is totalChange. -/
def ccdJointStep (c : SolveCtx) (acc : SolverSt × ℚ) (e : ChainEntry) : SolverSt × ℚ :=
  let st := acc.1
  let i := e.joint
  if isRotB (kindOf c.tree i) = false then acc
  else if vdist c.O (jointPosOf c st i) (effPos c st) < 1/1000 then acc
  else if vlen c.O (toEffector c st i) < 1/1000 then acc
  else if vlen c.O (toTarget c st i) < 1/1000 then acc
  else if ccdAngle c st i < 1/1000 then acc
  else
    let newAngle := ccdNewAngle c st i
    let actualDelta := |newAngle - st.angles i|
    if actualDelta > 1/10000 then
      (⟨setFn st.angles i newAngle, setOpt st.prev i newAngle⟩, acc.2 + actualDelta)
    else acc

/-- One backward sweep over the chain: the for loop runs from the last index
down to zero, which is a left fold over the reversed chain, with totalChange
starting at zero. -/
def sweepOnce (c : SolveCtx) (chain : List ChainEntry) (st : SolverSt) : SolverSt × ℚ :=
  List.foldl (ccdJointStep c) (st, 0) chain.reverse

/-- The current forward direction of the effector, getWorldDirection followed
by normalize. -/
def currentOrientation (c : SolveCtx) (st : SolverSt) : V3 :=
  normalizeV c.O (c.W.worldDir st.angles c.eff.idx)

/-- The body of the orientation-correction loop on one chain entry. The
orientation vectors are computed once before the loop and passed in. -/
def orientStep (c : SolveCtx) (initOri curOri : V3) (st : SolverSt) (e : ChainEntry) : SolverSt :=
  let i := e.joint
  if isRotB (kindOf c.tree i) = false then st
  else
    let correctionAngle :=
      signQ (V3.dot (V3.cross curOri initOri) (axisWorld c st i)) * (1/50) * orientationWeight
    let newAngle := applyLimit (limitOf c.tree i) (st.angles i + correctionAngle)
    ⟨setFn st.angles i newAngle, setOpt st.prev i newAngle⟩

/-- correctOrientation from the source: when the effector direction has
drifted (dot below 0.98) apply the small correction to chain.slice(-2), the
last two chain entries. -/
def correctOrientation (c : SolveCtx) (chain : List ChainEntry) (initOri : V3)
    (st : SolverSt) : SolverSt :=
  let curOri := currentOrientation c st
  if V3.dot curOri initOri < 49/50 then
    List.foldl (orientStep c initOri curOri) st (chain.drop (chain.length - 2))
  else st

/-- The outer iteration loop of solve, fuelled by the remaining iteration
budget: sweep, orientation correction, then the convergence check. -/
def solveLoop (c : SolveCtx) (chain : List ChainEntry) (initOri : V3) :
    Nat → SolverSt → SolverSt
  | 0, st => st
  | fuel + 1, st =>
    let swept := sweepOnce c chain st
    let st1 := if orientationWeight > 0 then correctOrientation c chain initOri swept.1
               else swept.1
    if vdist c.O (effPos c st1) c.targetPos < tolerance ∨ swept.2 < 1/200 then st1
    else solveLoop c chain initOri fuel st1

/-- solve from the source: an empty chain returns immediately, otherwise up to
maxIterations sweeps run. -/
def solve (c : SolveCtx) (chain : List ChainEntry) (initOri : V3) (st : SolverSt) : SolverSt :=
  if chain.length = 0 then st
  else solveLoop c chain initOri maxIterations st

/-- The target Object3D created by createSolverForJoint, identified by a fresh
id so that scene bookkeeping is observable. -/
structure TargetObj where
  id : Nat
  pos : V3
deriving DecidableEq

/-- The visual target sphere. -/
structure VisualObj where
  id : Nat
  pos : V3
  visible : Bool
deriving DecidableEq

/-- The per-solver data of SimpleIKSolver that the controller keeps: the
chain, the effector joint, the previousAngles map and the initial
orientation. -/
structure SolverData where
  chain : List ChainEntry
  effectorIdx : Nat
  prev : Nat → Option ℚ
  initOri : V3

/-- The state of URDFIKControls. The robot is the scene tree plus its mutable
joint angles; endPoints records the endPoint fields cached on joints; sceneIK
lists the ids of IK-created objects currently added to the scene; nextId
makes fresh object ids. -/
structure CtrlSt where
  tree : List Node
  angles : Nat → ℚ
  endPoints : Nat → Option V3
  enabled : Bool
  isDragging : Bool
  selectedEffector : Option Nat
  selectedOrig : Option ℚ
  shouldLock : Bool
  currentSolver : Option SolverData
  currentTarget : Option TargetObj
  currentTargetVisual : Option VisualObj
  sceneIK : List Nat
  nextId : Nat
  movableJoints : List Nat
  grabOffset : V3
  initialGrabPoint : V3

/-- The constructor state of URDFIKControls for a given robot. -/
def initCtrl (t : List Node) (ang : Nat → ℚ) : CtrlSt :=
  { tree := t
    angles := ang
    endPoints := fun _ => none
    enabled := false
    isDragging := false
    selectedEffector := none
    selectedOrig := none
    shouldLock := false
    currentSolver := none
    currentTarget := none
    currentTargetVisual := none
    sceneIK := []
    nextId := 0
    movableJoints := findAllMovableJoints t
    grabOffset := ⟨0, 0, 0⟩
    initialGrabPoint := ⟨0, 0, 0⟩ }

/-- cleanupCurrentSolver: remove the target and the visual from the scene and
drop all three references. -/
def cleanupCurrentSolver (st : CtrlSt) : CtrlSt :=
  let s1 :=
    match st.currentTarget with
    | some tg => { st with sceneIK := st.sceneIK.erase tg.id, currentTarget := none }
    | none => st
  let s2 :=
    match s1.currentTargetVisual with
    | some v => { s1 with sceneIK := s1.sceneIK.erase v.id, currentTargetVisual := none }
    | none => s1
  { s2 with currentSolver := none }

/-- The previousAngles map built in the SimpleIKSolver constructor: every
chain joint maps to its angle at construction time. -/
def initPrevAngles (chain : List ChainEntry) (ang : Nat → ℚ) : Nat → Option ℚ :=
  fun i => if (chain.map ChainEntry.joint).contains i then some (ang i) else none

/-- createSolverForJoint: clean up any existing solver, cache the end point on
the joint, decide chain inclusion from hasMovableChildren, build the chain,
and on success register a target and a visual in the scene and store the new
solver. -/
def createSolverForJoint (O : NumOracle) (W : World) (st : CtrlSt) (j : Nat) :
    Option SolverData × CtrlSt :=
  let st1 := cleanupCurrentSolver st
  let ep := W.calcEndPoint st1.angles j
  let st2 := { st1 with endPoints := setOptV st1.endPoints j ep }
  let hasChildren := hasMovableChildren st2.tree j
  let st3 := { st2 with shouldLock := !hasChildren }
  let chain := buildIKChain st3.tree st3.angles j hasChildren
  if chain.isEmpty then (none, st3)
  else
    let worldEndPoint := W.localToWorld st3.angles j ep
    let tgt : TargetObj := ⟨st3.nextId, worldEndPoint⟩
    let vis : VisualObj := ⟨st3.nextId + 1, worldEndPoint, st3.enabled⟩
    let solver : SolverData :=
      ⟨chain, j, initPrevAngles chain st3.angles, normalizeV O (W.worldDir st3.angles j)⟩
    (some solver,
      { st3 with
        currentSolver := some solver
        currentTarget := some tgt
        currentTargetVisual := some vis
        sceneIK := st3.sceneIK ++ [tgt.id, vis.id]
        nextId := st3.nextId + 2 })

/-- setEnabled: update the flag and the visual visibility; disabling clears
drag state and disposes the current solver. -/
def setEnabled (st : CtrlSt) (b : Bool) : CtrlSt :=
  let st1 := { st with enabled := b }
  let st2 :=
    match st1.currentTargetVisual with
    | some v => { st1 with currentTargetVisual := some { v with visible := b && st1.isDragging } }
    | none => st1
  if b then st2
  else
    cleanupCurrentSolver
      { st2 with
        isDragging := false
        selectedEffector := none
        selectedOrig := none
        shouldLock := false }

/-- updateRobot: swap the robot, dispose the current solver, clear the
selection and rebuild the movable-joint list. -/
def updateRobot (st : CtrlSt) (t : List Node) (ang : Nat → ℚ) : CtrlSt :=
  let st1 := cleanupCurrentSolver { st with tree := t, angles := ang }
  { st1 with
    selectedEffector := none
    selectedOrig := none
    shouldLock := false
    movableJoints := findAllMovableJoints t }

/-- onMouseDown with the externally computed hover result and grab point: on a
hit, select the joint, snapshot its angle, create a solver for it, and on
success reset the solver initial orientation, set the grab offset and move the
target and the visual to the grab point. -/
def onMouseDown (O : NumOracle) (W : World) (st : CtrlSt) (hovered : Option Nat)
    (grabPoint : V3) : CtrlSt :=
  if st.enabled = false then st
  else
    match hovered with
    | none => st
    | some j =>
      let st1 :=
        { st with
          selectedEffector := some j
          isDragging := true
          selectedOrig := some (st.angles j)
          initialGrabPoint := grabPoint }
      let res := createSolverForJoint O W st1 j
      let st2 := res.2
      match res.1, st2.currentTarget with
      | some solver, some tgt =>
        let solver2 := { solver with initOri := normalizeV O (W.worldDir st2.angles j) }
        let eff : Effector := ⟨j, st2.endPoints j⟩
        let currentEndPoint := getEffectorEndPoint W eff st2.angles
        { st2 with
          currentSolver := some solver2
          grabOffset := V3.sub grabPoint currentEndPoint
          currentTarget := some { tgt with pos := grabPoint }
          currentTargetVisual :=
            match st2.currentTargetVisual with
            | some v => some { v with pos := grabPoint, visible := true }
            | none => none }
      | _, _ => st2

/-- onMouseMove while dragging, with the externally re-projected grab point:
move the target by the stored grab offset, run solve, and re-apply the
snapshotted angle when the selected joint is locked. The hover path mutates
nothing that the controller model tracks. -/
def onMouseMove (O : NumOracle) (W : World) (st : CtrlSt) (newGrabPoint : V3) : CtrlSt :=
  if st.enabled = false then st
  else if st.isDragging && st.selectedEffector.isSome then
    match st.currentTarget, st.currentSolver, st.selectedEffector with
    | some tgt, some solver, some sel =>
      let newTarget := V3.sub newGrabPoint st.grabOffset
      let st1 :=
        { st with
          currentTarget := some { tgt with pos := newTarget }
          currentTargetVisual :=
            match st.currentTargetVisual with
            | some v => some { v with pos := newGrabPoint }
            | none => none }
      let c : SolveCtx :=
        ⟨O, W, st1.tree, ⟨solver.effectorIdx, st1.endPoints solver.effectorIdx⟩, newTarget⟩
      let sst : SolverSt := ⟨st1.angles, solver.prev⟩
      let sst2 := solve c solver.chain solver.initOri sst
      let st2 :=
        { st1 with
          angles := sst2.angles
          currentSolver := some { solver with prev := sst2.prev } }
      if st2.shouldLock && st2.selectedOrig.isSome then
        { st2 with angles := setFn st2.angles sel (st2.selectedOrig.getD 0) }
      else st2
    | _, _, _ => st
  else st

/-- updateEffectorPositions: when a target and a selection exist, move the
target to the world position of the selected effector joint. -/
def updateEffectorPositions (W : World) (st : CtrlSt) : CtrlSt :=
  match st.currentTarget, st.selectedEffector with
  | some tgt, some sel =>
    { st with currentTarget := some { tgt with pos := W.worldPos st.angles sel } }
  | _, _ => st

/-- The lifecycle operations of the single-solver invariant claim. -/
inductive Op where
  | create (j : Nat)
  | cleanup
  | enable (b : Bool)
  | swap (t : List Node) (ang : Nat → ℚ)

def applyOp (O : NumOracle) (W : World) (st : CtrlSt) : Op → CtrlSt
  | Op.create j => (createSolverForJoint O W st j).2
  | Op.cleanup => cleanupCurrentSolver st
  | Op.enable b => setEnabled st b
  | Op.swap t ang => updateRobot st t ang

def applyOps (O : NumOracle) (W : World) (st : CtrlSt) (ops : List Op) : CtrlSt :=
  List.foldl (applyOp O W) st ops

/-- The ids of the IK objects the controller currently tracks. -/
def trackedIds (st : CtrlSt) : List Nat :=
  (match st.currentTarget with | some tg => [tg.id] | none => []) ++
    (match st.currentTargetVisual with | some v => [v.id] | none => [])

/-- The single-solver bookkeeping invariant: the scene holds exactly the
tracked objects, all ids are below the fresh-id counter, target and visual are
present together, a solver implies a target, and target and visual ids
differ. -/
def CtrlInv (st : CtrlSt) : Prop :=
  st.sceneIK = trackedIds st ∧
  (∀ i ∈ st.sceneIK, i < st.nextId) ∧
  (st.currentTarget.isSome ↔ st.currentTargetVisual.isSome) ∧
  (st.currentSolver.isSome → st.currentTarget.isSome) ∧
  (match st.currentTarget, st.currentTargetVisual with
   | some tg, some v => tg.id ≠ v.id
   | _, _ => True)

/-- All-zero angle assignment. -/
def qzero : Nat → ℚ := fun _ => 0

/-- Empty previousAngles map. -/
def noPrev : Nat → Option ℚ := fun _ => none

/-- A scene root node that is not a joint. -/
def rootNode : Node := ⟨none, false, JointKind.fixed, none, none⟩

/-- A chain of two prismatic joints under the root: movable but not
rotatable. -/
def treeP : List Node :=
  [rootNode,
   ⟨some 0, true, JointKind.prismatic, none, none⟩,
   ⟨some 1, true, JointKind.prismatic, none, none⟩]

/-- A chain of two revolute joints under the root. -/
def treeR : List Node :=
  [rootNode,
   ⟨some 0, true, JointKind.revolute, some ⟨0, 0, 1⟩, none⟩,
   ⟨some 1, true, JointKind.revolute, some ⟨0, 0, 1⟩, none⟩]

/-- A root with a single fixed joint below it: nothing movable anywhere. -/
def treeF : List Node :=
  [rootNode, ⟨some 0, true, JointKind.fixed, none, none⟩]

/-- A root with one revolute joint that carries a limit of range two. -/
def treeL : List Node :=
  [rootNode,
   ⟨some 0, true, JointKind.revolute, some ⟨0, 0, 1⟩, some ⟨-1, 1⟩⟩]

/-- A root with one revolute joint whose limit range is one, used to exhibit
the smoothing divergence. -/
def treeS : List Node :=
  [rootNode,
   ⟨some 0, true, JointKind.revolute, some ⟨0, 0, 1⟩, some ⟨-(1/2), 1/2⟩⟩]

/-- Two revolute joints and then a prismatic joint, used to exhibit the
orientation-correction divergence. -/
def treeO : List Node :=
  [rootNode,
   ⟨some 0, true, JointKind.revolute, some ⟨0, 0, 1⟩, none⟩,
   ⟨some 1, true, JointKind.revolute, some ⟨0, 0, 1⟩, none⟩,
   ⟨some 2, true, JointKind.prismatic, none, none⟩]

/-- Oracle whose square root is constantly one (consistent on the unit
vectors used in the concrete tests) and whose acos is constantly one. -/
def oneOracle : NumOracle := ⟨fun _ => 1, fun _ => 1⟩

/-- A concrete world: every joint sits at the origin except index two at unit
x, local-to-world and direction transforms are the identity, the world
direction is unit x, and computed end points sit at a small z offset. -/
def constWorld : World :=
  ⟨fun _ i => if i == 2 then ⟨1, 0, 0⟩ else ⟨0, 0, 0⟩,
   fun _ _ v => v,
   fun _ _ v => v,
   fun _ _ => ⟨1, 0, 0⟩,
   fun _ _ => ⟨0, 0, 1/10⟩⟩

/-- Solve context over treeL with the effector standing at unit x and the
target at unit y. -/
def ctxL : SolveCtx := ⟨oneOracle, constWorld, treeL, ⟨2, none⟩, ⟨0, 1, 0⟩⟩

/-- Solve context over treeS, same geometry. -/
def ctxS : SolveCtx := ⟨oneOracle, constWorld, treeS, ⟨2, none⟩, ⟨0, 1, 0⟩⟩

/-- Solve context over treeO; the target position is irrelevant to
orientation correction. -/
def ctxO : SolveCtx := ⟨oneOracle, constWorld, treeO, ⟨3, none⟩, ⟨0, 0, 0⟩⟩

/-- Solver state with all angles zero and an empty previous-angle map. -/
def stZero : SolverSt := ⟨qzero, noPrev⟩

/-- Solver state with all angles one and every previous angle stored as
zero, reachable by constructing a solver at angle zero and then moving the
joint externally. -/
def stOne : SolverSt := ⟨fun _ => 1, fun _ => some 0⟩

/-- The chain over treeO containing both revolute joints and the prismatic
joint. -/
def chainO : List ChainEntry := [⟨1, 0⟩, ⟨2, 0⟩, ⟨3, 0⟩]

/-- A controller state with a live target, a selected effector and a nonzero
cached end point, for exercising updateEffectorPositions. -/
def stRefresh : CtrlSt :=
  { initCtrl treeR qzero with
    currentTarget := some ⟨0, ⟨0, 0, 0⟩⟩
    selectedEffector := some 1
    endPoints := fun _ => some ⟨0, 0, 1/10⟩ }


/-- A left fold preserves any invariant preserved by each step. -/
theorem foldl_preserve {α : Type} {β : Type} (P : α → Prop) (f : α → β → α)
    (h : ∀ s e, P s → P (f s e)) :
    ∀ (l : List β) (s : α), P s → P (List.foldl f s l) := by
  intro l
  induction l with
  | nil => intro s hs; simpa using hs
  | cons e l ih =>
    intro s hs
    simpa using ih (f s e) (h s e hs)

/-- Unfolding equation of the chain walk at a missing node. -/
theorem chainWalk_eq_nil1 (t : List Node) (ang : Nat → ℚ) (f i : Nat)
    (hg : t[i]? = none) : chainWalk t ang (f + 1) (some i) = [] := by
  rw [chainWalk, hg]

/-- Unfolding equation of the chain walk at a parentless node. -/
theorem chainWalk_eq_nil2 (t : List Node) (ang : Nat → ℚ) (f i : Nat) (n : Node)
    (hg : t[i]? = some n) (hp : n.parent? = none) :
    chainWalk t ang (f + 1) (some i) = [] := by
  rw [chainWalk, hg]
  dsimp only
  rw [hp]

/-- Unfolding equation of the chain walk at a node with a parent. -/
theorem chainWalk_eq_step (t : List Node) (ang : Nat → ℚ) (f i : Nat) (n : Node) (p : Nat)
    (hg : t[i]? = some n) (hp : n.parent? = some p) :
    chainWalk t ang (f + 1) (some i) =
      chainWalk t ang f (some p) ++
        (if n.isJoint && !(n.kind == JointKind.fixed) then [⟨i, ang i⟩] else []) := by
  rw [chainWalk, hg]
  dsimp only
  rw [hp]

/-- Every entry collected by the chain walk is a movable joint, because the
walk filters on exactly that predicate. -/
theorem chainWalk_mem_movable (t : List Node) (ang : Nat → ℚ) :
    ∀ (fuel : Nat) (cur : Option Nat) (e : ChainEntry),
      e ∈ chainWalk t ang fuel cur → isMovableNode t[e.joint]? = true := by
  intro fuel
  induction fuel with
  | zero => intro cur e h; cases cur <;> simp [chainWalk] at h
  | succ f ih =>
    intro cur e h
    cases cur with
    | none => simp [chainWalk] at h
    | some i =>
      cases hg : t[i]? with
      | none => rw [chainWalk_eq_nil1 t ang f i hg] at h; simp at h
      | some n =>
        cases hp : n.parent? with
        | none => rw [chainWalk_eq_nil2 t ang f i n hg hp] at h; simp at h
        | some p =>
          rw [chainWalk_eq_step t ang f i n p hg hp] at h
          simp only [List.mem_append] at h
          rcases h with h | h
          · exact ih (some p) e h
          · by_cases hc : (n.isJoint && !(n.kind == JointKind.fixed)) = true
            · rw [if_pos hc] at h
              simp only [List.mem_singleton] at h
              subst h
              rw [hg]
              simp only [isMovableNode]
              exact hc
            · rw [if_neg hc] at h
              simp at h

/-- Membership in the fuelled ancestor walk is monotone in the fuel. -/
theorem ancestorsFrom_mono (t : List Node) :
    ∀ (f g : Nat) (cur : Option Nat), f ≤ g →
      ∀ a ∈ ancestorsFrom t f cur, a ∈ ancestorsFrom t g cur := by
  intro f
  induction f with
  | zero => intro g cur _ a ha; cases cur <;> simp [ancestorsFrom] at ha
  | succ f ih =>
    intro g cur hfg a ha
    cases cur with
    | none => simp [ancestorsFrom] at ha
    | some i =>
      cases g with
      | zero => omega
      | succ g =>
        rw [ancestorsFrom] at ha ⊢
        simp only [List.mem_cons] at ha ⊢
        rcases ha with ha | ha
        · exact Or.inl ha
        · exact Or.inr (ih g (parentOf t i) (Nat.le_of_succ_le_succ hfg) a ha)

/-- Every entry of the chain walk from a cursor lies on the ancestor walk
from that cursor, with the same fuel. -/
theorem chainWalk_mem_anc (t : List Node) (ang : Nat → ℚ) :
    ∀ (fuel : Nat) (i : Nat) (e : ChainEntry),
      e ∈ chainWalk t ang fuel (some i) → e.joint ∈ ancestorsFrom t fuel (some i) := by
  intro fuel
  induction fuel with
  | zero => intro i e h; simp [chainWalk] at h
  | succ f ih =>
    intro i e h
    cases hg : t[i]? with
    | none => rw [chainWalk_eq_nil1 t ang f i hg] at h; simp at h
    | some n =>
      cases hp : n.parent? with
      | none => rw [chainWalk_eq_nil2 t ang f i n hg hp] at h; simp at h
      | some p =>
        rw [chainWalk_eq_step t ang f i n p hg hp] at h
        have hpar : parentOf t i = some p := by simp [parentOf, hg, hp]
        rw [ancestorsFrom, hpar]
        simp only [List.mem_append] at h
        simp only [List.mem_cons]
        rcases h with h | h
        · exact Or.inr (ih p e h)
        · by_cases hc : (n.isJoint && !(n.kind == JointKind.fixed)) = true
          · rw [if_pos hc] at h
            simp only [List.mem_singleton] at h
            subst h
            exact Or.inl rfl
          · rw [if_neg hc] at h
            simp at h

/-- The chain walk lists every entry before any of its strict descendants:
the relation between an earlier and a later entry is proper ancestry. -/
theorem chainWalk_pairwise (t : List Node) (ang : Nat → ℚ) :
    ∀ (fuel : Nat), fuel ≤ t.length → ∀ (cur : Option Nat),
      List.Pairwise (fun a b : ChainEntry => a.joint ∈ properAncestorsOf t b.joint)
        (chainWalk t ang fuel cur) := by
  intro fuel
  induction fuel with
  | zero => intro _ cur; cases cur <;> simp [chainWalk]
  | succ f ih =>
    intro hle cur
    cases cur with
    | none => simp [chainWalk]
    | some i =>
      cases hg : t[i]? with
      | none => rw [chainWalk_eq_nil1 t ang f i hg]; simp
      | some n =>
        cases hp : n.parent? with
        | none => rw [chainWalk_eq_nil2 t ang f i n hg hp]; simp
        | some p =>
          have hpar : parentOf t i = some p := by simp [parentOf, hg, hp]
          rw [chainWalk_eq_step t ang f i n p hg hp, List.pairwise_append]
          refine ⟨ih (Nat.le_of_succ_le hle) (some p), ?_, ?_⟩
          · by_cases hc : (n.isJoint && !(n.kind == JointKind.fixed)) = true
            · rw [if_pos hc]; simp
            · rw [if_neg hc]; simp
          · intro a ha b hb
            by_cases hc : (n.isJoint && !(n.kind == JointKind.fixed)) = true
            · rw [if_pos hc] at hb
              simp only [List.mem_singleton] at hb
              subst hb
              have h1 : a.joint ∈ ancestorsFrom t f (some p) := chainWalk_mem_anc t ang f p a ha
              have h2 : a.joint ∈ ancestorsFrom t t.length (some p) :=
                ancestorsFrom_mono t f t.length (some p) (Nat.le_of_succ_le hle) a.joint h1
              simpa [properAncestorsOf, hpar] using h2
            · rw [if_neg hc] at hb
              simp at hb

/-- Under well-formed parent pointers, every chain entry index is bounded by
the cursor index. -/
theorem chainWalk_mem_le (t : List Node) (ang : Nat → ℚ) (hwf : wfParentB t = true) :
    ∀ (fuel : Nat) (i : Nat) (e : ChainEntry),
      e ∈ chainWalk t ang fuel (some i) → e.joint ≤ i := by
  intro fuel
  induction fuel with
  | zero => intro i e h; simp [chainWalk] at h
  | succ f ih =>
    intro i e h
    cases hg : t[i]? with
    | none => rw [chainWalk_eq_nil1 t ang f i hg] at h; simp at h
    | some n =>
      cases hp : n.parent? with
      | none => rw [chainWalk_eq_nil2 t ang f i n hg hp] at h; simp at h
      | some p =>
        rw [chainWalk_eq_step t ang f i n p hg hp] at h
        have hi : i < t.length := (List.getElem?_eq_some.mp hg).1
        have hpar : parentOf t i = some p := by simp [parentOf, hg, hp]
        have hpi : p < i := by
          have hall := List.all_eq_true.mp hwf i (List.mem_range.mpr hi)
          rw [hpar] at hall
          exact of_decide_eq_true hall
        simp only [List.mem_append] at h
        rcases h with h | h
        · exact Nat.le_of_lt (Nat.lt_of_le_of_lt (ih p e h) hpi)
        · by_cases hc : (n.isJoint && !(n.kind == JointKind.fixed)) = true
          · rw [if_pos hc] at h
            simp only [List.mem_singleton] at h
            subst h
            exact Nat.le_refl i
          · rw [if_neg hc] at h
            simp at h

/-- The chain walk is empty exactly when no node on the ancestor walk is a
movable joint that still has a parent. -/
theorem chainWalk_nil_iff (t : List Node) (ang : Nat → ℚ) :
    ∀ (fuel : Nat) (cur : Option Nat),
      chainWalk t ang fuel cur = [] ↔
        ∀ a ∈ ancestorsFrom t fuel cur,
          ¬(isMovableNode t[a]? = true ∧ parentOf t a ≠ none) := by
  intro fuel
  induction fuel with
  | zero => intro cur; cases cur <;> simp [chainWalk, ancestorsFrom]
  | succ f ih =>
    intro cur
    cases cur with
    | none => simp [chainWalk, ancestorsFrom]
    | some i =>
      rw [ancestorsFrom]
      cases hg : t[i]? with
      | none =>
        have hpar : parentOf t i = none := by simp [parentOf, hg]
        rw [chainWalk_eq_nil1 t ang f i hg, hpar]
        simp [ancestorsFrom, isMovableNode, hg]
      | some n =>
        cases hp : n.parent? with
        | none =>
          have hpar : parentOf t i = none := by simp [parentOf, hg, hp]
          rw [chainWalk_eq_nil2 t ang f i n hg hp, hpar]
          simp [ancestorsFrom, hpar]
        | some p =>
          have hpar : parentOf t i = some p := by simp [parentOf, hg, hp]
          rw [chainWalk_eq_step t ang f i n p hg hp, hpar]
          constructor
          · intro h a ha
            rcases List.append_eq_nil.mp h with ⟨h1, h2⟩
            simp only [List.mem_cons] at ha
            rcases ha with ha | ha
            · subst ha
              intro hcontra
              rcases hcontra with ⟨hm, _⟩
              rw [hg] at hm
              simp only [isMovableNode] at hm
              rw [if_pos hm] at h2
              simp at h2
            · exact (ih (some p)).mp h1 a ha
          · intro h
            have hi := h i (by simp)
            have hrest : chainWalk t ang f (some p) = [] := by
              refine (ih (some p)).mpr ?_
              intro a ha
              exact h a (by simp [ha])
            rw [hrest]
            have hm : ¬ (n.isJoint && !(n.kind == JointKind.fixed)) = true := by
              intro hc
              exact hi ⟨by rw [hg]; simp only [isMovableNode]; exact hc, by rw [hpar]; simp⟩
            rw [if_neg hm]
            simp

/-- A movable node is never a fixed joint. -/
theorem isMovable_kind_ne_fixed (t : List Node) (i : Nat) (h : isMovableNode t[i]? = true) :
    kindOf t i ≠ some JointKind.fixed := by
  cases hg : t[i]? with
  | none => rw [hg] at h; simp [isMovableNode] at h
  | some n =>
    rw [hg] at h
    simp only [isMovableNode] at h
    intro hk
    simp only [kindOf, hg, Option.map_some'] at hk
    have hkk : n.kind = JointKind.fixed := by
      exact Option.some_injective _ hk
    simp [hkk] at h

/-- Claim C1 counterexample: on a tree whose movable ancestors are prismatic,
buildIKChain returns a chain entry of kind prismatic, so the chain is not
restricted to revolute or continuous joints. -/
theorem buildIKChain_includes_prismatic :
    ¬ (∀ e ∈ buildIKChain treeP qzero 2 false,
        kindOf treeP e.joint = some JointKind.revolute ∨
        kindOf treeP e.joint = some JointKind.continuous) := by decide

/-- Claim C1 (amended): every entry returned by buildIKChain is a movable
URDF joint, that is a joint whose kind is not fixed; fixed joints never
appear, but every other kind, prismatic included, may appear. -/
theorem buildIKChain_entries_movable (t : List Node) (ang : Nat → ℚ) (j : Nat) (inc : Bool) :
    ∀ e ∈ buildIKChain t ang j inc,
      isMovableNode t[e.joint]? = true ∧ kindOf t e.joint ≠ some JointKind.fixed := by
  intro e he
  have hm := chainWalk_mem_movable t ang t.length _ e he
  exact ⟨hm, isMovable_kind_ne_fixed t e.joint hm⟩

/-- Witness for the amended claim C1 at a concrete tree and entry. -/
theorem buildIKChain_entries_movable_witness :
    isMovableNode treeP[1]? = true ∧ kindOf treeP 1 ≠ some JointKind.fixed :=
  buildIKChain_entries_movable treeP qzero 2 false ⟨1, 0⟩ (by decide)

/-- Claim C9 (confirmed): buildIKChain output is root-first, every entry is a
proper ancestor of every later entry, and no fixed joint is included. -/
theorem buildIKChain_order_and_no_fixed (t : List Node) (ang : Nat → ℚ) (j : Nat) (inc : Bool) :
    List.Pairwise (fun a b : ChainEntry => a.joint ∈ properAncestorsOf t b.joint)
      (buildIKChain t ang j inc) ∧
    ∀ e ∈ buildIKChain t ang j inc, kindOf t e.joint ≠ some JointKind.fixed := by
  constructor
  · exact chainWalk_pairwise t ang t.length (Nat.le_refl _) _
  · intro e he
    exact isMovable_kind_ne_fixed t e.joint (chainWalk_mem_movable t ang t.length _ e he)

/-- Witness for claim C9 at a concrete two-joint tree. -/
theorem buildIKChain_order_and_no_fixed_witness :
    List.Pairwise (fun a b : ChainEntry => a.joint ∈ properAncestorsOf treeR b.joint)
      (buildIKChain treeR qzero 2 true) ∧
    kindOf treeR 1 ≠ some JointKind.fixed :=
  ⟨(buildIKChain_order_and_no_fixed treeR qzero 2 true).1,
   (buildIKChain_order_and_no_fixed treeR qzero 2 true).2 ⟨1, 0⟩ (by decide)⟩

/-- Fields of the controller state that cleanupCurrentSolver leaves untouched,
and the three references it always clears. -/
theorem cleanup_core (st : CtrlSt) :
    (cleanupCurrentSolver st).currentSolver = none ∧
    (cleanupCurrentSolver st).currentTarget = none ∧
    (cleanupCurrentSolver st).currentTargetVisual = none ∧
    (cleanupCurrentSolver st).tree = st.tree ∧
    (cleanupCurrentSolver st).angles = st.angles ∧
    (cleanupCurrentSolver st).nextId = st.nextId ∧
    (cleanupCurrentSolver st).enabled = st.enabled ∧
    (cleanupCurrentSolver st).endPoints = st.endPoints ∧
    (cleanupCurrentSolver st).isDragging = st.isDragging ∧
    (cleanupCurrentSolver st).selectedEffector = st.selectedEffector ∧
    (cleanupCurrentSolver st).selectedOrig = st.selectedOrig ∧
    (cleanupCurrentSolver st).shouldLock = st.shouldLock ∧
    (cleanupCurrentSolver st).movableJoints = st.movableJoints := by
  rcases st with ⟨tr, an, ep, en, dr, se, so, sl, cs, ct, cv, sc, ni, mv, go, ig⟩
  cases ct <;> cases cv <;> simp [cleanupCurrentSolver]

/-- Claim C7 counterexample: joint 2 of treeP has no rotatable (revolute or
continuous) ancestor, yet buildIKChain returns a nonempty chain, because its
prismatic ancestor passes the not-fixed filter. -/
theorem noRotatableAncestor_chain_nonempty :
    ((properAncestorsOf treeP 2).all fun a => !(isRotB (kindOf treeP a))) = true ∧
    isRotB (kindOf treeP 2) = false ∧
    buildIKChain treeP qzero 2 false = [⟨1, 0⟩] ∧
    buildIKChain treeP qzero 2 false ≠ [] := by decide

/-- Claim C7 (amended): buildChain returns the empty list exactly when no
walked node is a movable (non-fixed) joint that still has a parent; solve on
an empty chain returns the state unchanged; and when the chain computed for a
joint is empty, createSolverForJoint returns none and the controller holds no
solver, target or visual afterward. -/
theorem empty_chain_semantics :
    (∀ (t : List Node) (ang : Nat → ℚ) (j : Nat) (inc : Bool),
       buildIKChain t ang j inc = [] ↔
         ∀ a ∈ ancestorsFrom t t.length (startCursor t j inc),
           ¬(isMovableNode t[a]? = true ∧ parentOf t a ≠ none)) ∧
    (∀ (c : SolveCtx) (initOri : V3) (st : SolverSt), solve c [] initOri st = st) ∧
    (∀ (O : NumOracle) (W : World) (st : CtrlSt) (j : Nat),
       buildIKChain st.tree st.angles j (hasMovableChildren st.tree j) = [] →
         (createSolverForJoint O W st j).1 = none ∧
         (createSolverForJoint O W st j).2.currentSolver = none ∧
         (createSolverForJoint O W st j).2.currentTarget = none ∧
         (createSolverForJoint O W st j).2.currentTargetVisual = none) := by
  refine ⟨?_, ?_, ?_⟩
  · intro t ang j inc
    exact chainWalk_nil_iff t ang t.length (startCursor t j inc)
  · intro c initOri st
    simp [solve]
  · intro O W st j h
    have hc := cleanup_core st
    simp only [createSolverForJoint]
    have htree : (cleanupCurrentSolver st).tree = st.tree := hc.2.2.2.1
    have hang : (cleanupCurrentSolver st).angles = st.angles := hc.2.2.2.2.1
    simp only [htree, hang, h]
    simp [hc.1, hc.2.1, hc.2.2.1]

/-- Witness for the amended claim C7: a joint below a fixed joint yields an
empty chain and a null solver. -/
theorem empty_chain_semantics_witness :
    (createSolverForJoint oneOracle constWorld (initCtrl treeF qzero) 1).1 = none ∧
    (createSolverForJoint oneOracle constWorld (initCtrl treeF qzero) 1).2.currentSolver = none ∧
    (createSolverForJoint oneOracle constWorld (initCtrl treeF qzero) 1).2.currentTarget = none ∧
    (createSolverForJoint oneOracle constWorld
        (initCtrl treeF qzero) 1).2.currentTargetVisual = none :=
  empty_chain_semantics.2.2 oneOracle constWorld (initCtrl treeF qzero) 1 (by decide)

/-- A left fold preserves an invariant preserved by each step on list
members. -/
theorem foldl_preserve_mem {α : Type} {β : Type} (P : α → Prop) (f : α → β → α) :
    ∀ (l : List β), (∀ s, ∀ e ∈ l, P s → P (f s e)) →
      ∀ s, P s → P (List.foldl f s l) := by
  intro l
  induction l with
  | nil => intro _ s hs; simpa using hs
  | cons e l ih =>
    intro h s hs
    simp only [List.foldl_cons]
    exact ih (fun s x hx hp => h s x (by simp [hx]) hp) (f s e) (h s e (by simp) hs)

/-- Cross product is bilinear with respect to scalar multiplication. -/
theorem cross_smul_smul (a b : ℚ) (u v : V3) :
    V3.cross (V3.smul a u) (V3.smul b v) = V3.smul (a * b) (V3.cross u v) := by
  simp only [V3.cross, V3.smul, V3.mk.injEq]
  refine ⟨by ring, by ring, by ring⟩

/-- Dot product pulls scalar factors out of its left argument. -/
theorem dot_smul_left (k : ℚ) (w x : V3) : V3.dot (V3.smul k w) x = k * V3.dot w x := by
  simp only [V3.dot, V3.smul]
  ring

/-- The sign function ignores positive scalar factors. -/
theorem signQ_mul_pos (k x : ℚ) (h : 0 < k) : signQ (k * x) = signQ x := by
  unfold signQ
  rcases lt_trichotomy x 0 with hx | hx | hx
  · have h1 : k * x < 0 := mul_neg_of_pos_of_neg h hx
    rw [if_neg (by linarith), if_pos h1, if_neg (by linarith), if_pos hx]
  · simp [hx]
  · have h1 : 0 < k * x := mul_pos h hx
    rw [if_pos h1, if_pos hx]

/-- A CCD step on an entry of a kind the sweep does not rotate is the
identity. -/
theorem ccdJointStep_skip (c : SolveCtx) (acc : SolverSt × ℚ) (e : ChainEntry)
    (h : isRotB (kindOf c.tree e.joint) = false) : ccdJointStep c acc e = acc := by
  simp [ccdJointStep, h]

/-- A CCD step never changes the angle of any joint other than its own
entry. -/
theorem ccdJointStep_angles_ne (c : SolveCtx) (acc : SolverSt × ℚ) (e : ChainEntry) (i : Nat)
    (h : i ≠ e.joint) : (ccdJointStep c acc e).1.angles i = acc.1.angles i := by
  simp only [ccdJointStep]
  split_ifs <;> simp [setFn, h]

/-- A CCD step leaves its own angle unchanged or sets it to the smoothed,
limit-clamped new angle. -/
theorem ccdJointStep_self_cases (c : SolveCtx) (acc : SolverSt × ℚ) (e : ChainEntry) :
    (ccdJointStep c acc e).1.angles e.joint = acc.1.angles e.joint ∨
    (ccdJointStep c acc e).1.angles e.joint = ccdNewAngle c acc.1 e.joint := by
  simp only [ccdJointStep]
  split_ifs <;> first
    | exact Or.inl rfl
    | exact Or.inr (by simp [setFn])

/-- An orientation step never changes the angle of any joint other than its
own entry. -/
theorem orientStep_angles_ne (c : SolveCtx) (io co : V3) (st : SolverSt) (e : ChainEntry)
    (i : Nat) (h : i ≠ e.joint) : (orientStep c io co st e).angles i = st.angles i := by
  simp only [orientStep]
  split_ifs <;> simp [setFn, h]

/-- An orientation step leaves its own angle unchanged or sets it to the
limit-clamped corrected angle. -/
theorem orientStep_self (c : SolveCtx) (io co : V3) (st : SolverSt) (e : ChainEntry) :
    (orientStep c io co st e).angles e.joint = st.angles e.joint ∨
    (orientStep c io co st e).angles e.joint =
      applyLimit (limitOf c.tree e.joint)
        (st.angles e.joint +
          signQ (V3.dot (V3.cross co io) (axisWorld c st e.joint)) * (1/50) *
            orientationWeight) := by
  simp only [orientStep]
  split_ifs <;> first
    | exact Or.inl rfl
    | exact Or.inr (by simp [setFn])

/-- Clamping with ordered bounds lands inside the bounds. -/
theorem clampQ_mem (lo hi x : ℚ) (h : lo ≤ hi) :
    lo ≤ clampQ lo hi x ∧ clampQ lo hi x ≤ hi :=
  ⟨le_max_left _ _, max_le h (min_le_left _ _)⟩

/-- The guarded limit clamp lands inside a limit of positive range. -/
theorem applyLimit_mem (l : Limit) (x : ℚ) (h : l.upper - l.lower > 0) :
    l.lower ≤ applyLimit (some l) x ∧ applyLimit (some l) x ≤ l.upper := by
  simp only [applyLimit, if_pos h]
  exact clampQ_mem _ _ _ (by linarith)

/-- Without a limit the guarded clamp is the identity. -/
theorem applyLimit_none (x : ℚ) : applyLimit none x = x := rfl

/-- With an empty or inverted limit range the guarded clamp is the
identity. -/
theorem applyLimit_nonpos (l : Limit) (x : ℚ) (h : ¬ l.upper - l.lower > 0) :
    applyLimit (some l) x = x := by
  simp [applyLimit, h]

/-- The rotation direction computed from normalized vectors equals the sign
computed from the raw joint-to-tip and joint-to-target vectors, provided the
two length guards of the sweep have passed. -/
theorem ccdDirection_unnormalized (c : SolveCtx) (st : SolverSt) (i : Nat)
    (h3 : ¬ vlen c.O (toEffector c st i) < 1/1000)
    (h4 : ¬ vlen c.O (toTarget c st i) < 1/1000) :
    ccdDirection c st i =
      signQ (V3.dot (V3.cross (toEffector c st i) (toTarget c st i)) (axisWorld c st i)) := by
  have hs1 : (0 : ℚ) < vlen c.O (toEffector c st i) := by
    have := not_lt.mp h3
    linarith
  have hs2 : (0 : ℚ) < vlen c.O (toTarget c st i) := by
    have := not_lt.mp h4
    linarith
  have hk : (0 : ℚ) < 1 / vlen c.O (toEffector c st i) * (1 / vlen c.O (toTarget c st i)) :=
    mul_pos (by positivity) (by positivity)
  unfold ccdDirection teNorm ttNorm normalizeV
  rw [cross_smul_smul, dot_smul_left, signQ_mul_pos _ _ hk]

/-- Claim C5 (confirmed): the sweep processes the chain from the effector end
toward the root (the last chain entry is folded first); an entry whose kind
is not revolute or continuous never has its angle changed by the sweep; for
a processed non-degenerate joint the raw delta is the sign of the raw cross
product against the world axis times the arc cosine of the clamped dot of
the normalized vectors times the damping factor, clamped in magnitude to
maxAngleChangePerIteration; the constants are one half and 0.15. -/
theorem ccd_sweep_order_skip_delta :
    (∀ (c : SolveCtx) (st : SolverSt) (l : List ChainEntry) (e : ChainEntry),
       sweepOnce c (l ++ [e]) st = List.foldl (ccdJointStep c) (ccdJointStep c (st, 0) e) l.reverse) ∧
    (∀ (c : SolveCtx) (chain : List ChainEntry) (st : SolverSt) (i : Nat),
       isRotB (kindOf c.tree i) = false → (sweepOnce c chain st).1.angles i = st.angles i) ∧
    (∀ (c : SolveCtx) (st : SolverSt) (i : Nat),
       ¬ vlen c.O (toEffector c st i) < 1/1000 →
       ¬ vlen c.O (toTarget c st i) < 1/1000 →
       rawDelta c st i =
         clampQ (-maxAngleChangePerIteration) maxAngleChangePerIteration
           (signQ (V3.dot (V3.cross (toEffector c st i) (toTarget c st i)) (axisWorld c st i)) *
             c.O.acos (clampQ (-1) 1 (V3.dot (teNorm c st i) (ttNorm c st i))) *
             dampingFactor)) ∧
    dampingFactor = 1/2 ∧ maxAngleChangePerIteration = 3/20 := by
  refine ⟨?_, ?_, ?_, rfl, rfl⟩
  · intro c st l e
    simp [sweepOnce, List.reverse_append]
  · intro c chain st i hk
    have hpres : ∀ (acc : SolverSt × ℚ) (e : ChainEntry),
        acc.1.angles i = st.angles i → (ccdJointStep c acc e).1.angles i = st.angles i := by
      intro acc e hacc
      by_cases he : e.joint = i
      · have hk2 : isRotB (kindOf c.tree e.joint) = false := by rw [he]; exact hk
        rw [ccdJointStep_skip c acc e hk2]
        exact hacc
      · rw [ccdJointStep_angles_ne c acc e i (fun h => he h.symm)]
        exact hacc
    exact foldl_preserve (fun acc : SolverSt × ℚ => acc.1.angles i = st.angles i)
      (ccdJointStep c) hpres chain.reverse (st, 0) rfl
  · intro c st i h3 h4
    unfold rawDelta ccdAngle ccdDot
    rw [ccdDirection_unnormalized c st i h3 h4]

/-- Witness for claim C5 at a concrete geometry where both guards pass. -/
theorem ccd_sweep_order_skip_delta_witness :
    rawDelta ctxL stZero 1 =
      clampQ (-maxAngleChangePerIteration) maxAngleChangePerIteration
        (signQ (V3.dot (V3.cross (toEffector ctxL stZero 1) (toTarget ctxL stZero 1))
            (axisWorld ctxL stZero 1)) *
          ctxL.O.acos (clampQ (-1) 1 (V3.dot (teNorm ctxL stZero 1) (ttNorm ctxL stZero 1))) *
          dampingFactor) :=
  ccd_sweep_order_skip_delta.2.2.1 ctxL stZero 1
    (by norm_num [vlen, vdist, toEffector, toTarget, effPos, getEffectorEndPoint, jointPosOf, ctxL, ctxS, oneOracle, constWorld, stZero, stOne, qzero, noPrev, treeL, treeS, V3.sub, V3.lenSq, V3.dot])
    (by norm_num [vlen, vdist, toEffector, toTarget, effPos, getEffectorEndPoint, jointPosOf, ctxL, ctxS, oneOracle, constWorld, stZero, stOne, qzero, noPrev, treeL, treeS, V3.sub, V3.lenSq, V3.dot])

/-- Claim C6 counterexample: with a stored previous angle of exactly zero
and a current angle of one, the applied angle is the limit re-clamp of the
smoothing computed from the current angle, because the JavaScript or-else
fallback treats the stored zero as absent; the applied value differs both
from the smoothing formula based on the stored previous angle and from the
unclamped smoothing value. -/
theorem smoothing_uses_falsy_fallback :
    stOne.prev 1 = some 0 ∧
    ccdTargetAngle ctxS stOne 1 = 1/2 ∧
    (ccdJointStep ctxS (stOne, 0) ⟨1, 1⟩).1.angles 1 = 1/2 ∧
    ¬ ((ccdJointStep ctxS (stOne, 0) ⟨1, 1⟩).1.angles 1 =
        0 + (ccdTargetAngle ctxS stOne 1 - 0) * smoothingFactor) ∧
    ¬ ((ccdJointStep ctxS (stOne, 0) ⟨1, 1⟩).1.angles 1 =
        effPrevAngle stOne 1 +
          (ccdTargetAngle ctxS stOne 1 - effPrevAngle stOne 1) * smoothingFactor) := by
  refine ⟨rfl, ?_, ?_, ?_, ?_⟩ <;>
    norm_num [ccdJointStep, ccdNewAngle, smoothedAngle, effPrevAngle, ccdTargetAngle, rawDelta, ccdDirection, ccdAngle, ccdDot, teNorm, ttNorm, normalizeV, toEffector, toTarget, effPos, getEffectorEndPoint, jointPosOf, axisWorld, localAxis, axisOf, limitOf, kindOf, vlen, vdist, V3.sub, V3.dot, V3.cross, V3.smul, V3.lenSq, clampQ, signQ, applyLimit, setFn, setOpt, isRotB, dampingFactor, maxAngleChangePerIteration, smoothingFactor, orientationWeight, ctxS, oneOracle, constWorld, stOne, qzero, noPrev, treeS, max_def, min_def, abs]

/-- Claim C6 (amended): when a sweep step changes a joint, the applied angle
is the limit re-clamp of previousAngle plus (targetAngle minus previousAngle)
times smoothingFactor, where previousAngle is the stored previous angle when
it is present and nonzero and otherwise the current joint angle; the change
and the previous-angle update happen exactly when the new angle differs from
the current angle by more than one ten-thousandth. -/
theorem ccd_smoothing_semantics :
    (∀ (c : SolveCtx) (st : SolverSt) (tc : ℚ) (e : ChainEntry),
       isRotB (kindOf c.tree e.joint) = true →
       ¬ vdist c.O (jointPosOf c st e.joint) (effPos c st) < 1/1000 →
       ¬ vlen c.O (toEffector c st e.joint) < 1/1000 →
       ¬ vlen c.O (toTarget c st e.joint) < 1/1000 →
       ¬ ccdAngle c st e.joint < 1/1000 →
       ((|ccdNewAngle c st e.joint - st.angles e.joint| > 1/10000 →
          ccdJointStep c (st, tc) e =
            (⟨setFn st.angles e.joint (ccdNewAngle c st e.joint),
              setOpt st.prev e.joint (ccdNewAngle c st e.joint)⟩,
             tc + |ccdNewAngle c st e.joint - st.angles e.joint|)) ∧
        (¬ |ccdNewAngle c st e.joint - st.angles e.joint| > 1/10000 →
          ccdJointStep c (st, tc) e = (st, tc)))) ∧
    (∀ (c : SolveCtx) (st : SolverSt) (i : Nat),
       ccdNewAngle c st i =
         applyLimit (limitOf c.tree i)
           (effPrevAngle st i + (ccdTargetAngle c st i - effPrevAngle st i) * smoothingFactor)) ∧
    (∀ (st : SolverSt) (i : Nat) (p : ℚ), st.prev i = some p → p ≠ 0 → effPrevAngle st i = p) ∧
    (∀ (st : SolverSt) (i : Nat), st.prev i = some 0 → effPrevAngle st i = st.angles i) ∧
    smoothingFactor = 3/10 := by
  refine ⟨?_, ?_, ?_, ?_, rfl⟩
  · intro c st tc e h1 h2 h3 h4 h5
    have h1x : ¬ isRotB (kindOf c.tree e.joint) = false := by simp [h1]
    constructor
    · intro h6
      simp only [ccdJointStep]
      rw [if_neg h1x, if_neg h2, if_neg h3, if_neg h4, if_neg h5, if_pos h6]
    · intro h6
      simp only [ccdJointStep]
      rw [if_neg h1x, if_neg h2, if_neg h3, if_neg h4, if_neg h5, if_neg h6]
  · intro c st i
    rfl
  · intro st i p hp hne
    simp [effPrevAngle, hp, hne]
  · intro st i hp
    simp [effPrevAngle, hp]

/-- Witness for the amended claim C6 at a concrete significant change. -/
theorem ccd_smoothing_semantics_witness :
    ccdJointStep ctxL (stZero, 0) ⟨1, 0⟩ =
      (⟨setFn stZero.angles 1 (ccdNewAngle ctxL stZero 1),
        setOpt stZero.prev 1 (ccdNewAngle ctxL stZero 1)⟩,
       0 + |ccdNewAngle ctxL stZero 1 - stZero.angles 1|) :=
  (ccd_smoothing_semantics.1 ctxL stZero 0 ⟨1, 0⟩ (by decide)
      (by norm_num [ccdJointStep, ccdNewAngle, smoothedAngle, effPrevAngle, ccdTargetAngle, rawDelta, ccdDirection, ccdAngle, ccdDot, teNorm, ttNorm, normalizeV, toEffector, toTarget, effPos, getEffectorEndPoint, jointPosOf, axisWorld, localAxis, axisOf, limitOf, kindOf, vlen, vdist, V3.sub, V3.dot, V3.cross, V3.smul, V3.lenSq, clampQ, signQ, applyLimit, setFn, setOpt, isRotB, dampingFactor, maxAngleChangePerIteration, smoothingFactor, orientationWeight, ctxL, oneOracle, constWorld, stZero, qzero, noPrev, treeL, max_def, min_def, abs])
      (by norm_num [ccdJointStep, ccdNewAngle, smoothedAngle, effPrevAngle, ccdTargetAngle, rawDelta, ccdDirection, ccdAngle, ccdDot, teNorm, ttNorm, normalizeV, toEffector, toTarget, effPos, getEffectorEndPoint, jointPosOf, axisWorld, localAxis, axisOf, limitOf, kindOf, vlen, vdist, V3.sub, V3.dot, V3.cross, V3.smul, V3.lenSq, clampQ, signQ, applyLimit, setFn, setOpt, isRotB, dampingFactor, maxAngleChangePerIteration, smoothingFactor, orientationWeight, ctxL, oneOracle, constWorld, stZero, qzero, noPrev, treeL, max_def, min_def, abs])
      (by norm_num [ccdJointStep, ccdNewAngle, smoothedAngle, effPrevAngle, ccdTargetAngle, rawDelta, ccdDirection, ccdAngle, ccdDot, teNorm, ttNorm, normalizeV, toEffector, toTarget, effPos, getEffectorEndPoint, jointPosOf, axisWorld, localAxis, axisOf, limitOf, kindOf, vlen, vdist, V3.sub, V3.dot, V3.cross, V3.smul, V3.lenSq, clampQ, signQ, applyLimit, setFn, setOpt, isRotB, dampingFactor, maxAngleChangePerIteration, smoothingFactor, orientationWeight, ctxL, oneOracle, constWorld, stZero, qzero, noPrev, treeL, max_def, min_def, abs])
      (by norm_num [ccdJointStep, ccdNewAngle, smoothedAngle, effPrevAngle, ccdTargetAngle, rawDelta, ccdDirection, ccdAngle, ccdDot, teNorm, ttNorm, normalizeV, toEffector, toTarget, effPos, getEffectorEndPoint, jointPosOf, axisWorld, localAxis, axisOf, limitOf, kindOf, vlen, vdist, V3.sub, V3.dot, V3.cross, V3.smul, V3.lenSq, clampQ, signQ, applyLimit, setFn, setOpt, isRotB, dampingFactor, maxAngleChangePerIteration, smoothingFactor, orientationWeight, ctxL, oneOracle, constWorld, stZero, qzero, noPrev, treeL, max_def, min_def, abs])).1
    (by norm_num [ccdJointStep, ccdNewAngle, smoothedAngle, effPrevAngle, ccdTargetAngle, rawDelta, ccdDirection, ccdAngle, ccdDot, teNorm, ttNorm, normalizeV, toEffector, toTarget, effPos, getEffectorEndPoint, jointPosOf, axisWorld, localAxis, axisOf, limitOf, kindOf, vlen, vdist, V3.sub, V3.dot, V3.cross, V3.smul, V3.lenSq, clampQ, signQ, applyLimit, setFn, setOpt, isRotB, dampingFactor, maxAngleChangePerIteration, smoothingFactor, orientationWeight, ctxL, oneOracle, constWorld, stZero, qzero, noPrev, treeL, max_def, min_def, abs])

/-- Claim C8 counterexample: the chain over treeO ends in a prismatic entry,
so the last two revolute or continuous entries are the joints one and two;
drift is present and joint one has no limit, so the claim requires a nonzero
correction on joint one, yet correctOrientation slices the last two raw chain
entries, corrects only joint two and leaves joint one untouched. -/
theorem orientation_corrects_sliced_entries_only :
    (chainO.filter fun e => isRotB (kindOf treeO e.joint)) = [⟨1, 0⟩, ⟨2, 0⟩] ∧
    V3.dot (currentOrientation ctxO stZero) ⟨0, 1, 0⟩ < 49/50 ∧
    (correctOrientation ctxO chainO ⟨0, 1, 0⟩ stZero).angles 2 = 3/500 ∧
    (correctOrientation ctxO chainO ⟨0, 1, 0⟩ stZero).angles 1 = 0 ∧
    stZero.angles 1 +
        signQ (V3.dot (V3.cross (currentOrientation ctxO stZero) ⟨0, 1, 0⟩)
            (axisWorld ctxO stZero 1)) * (1/50) * orientationWeight ≠
      (correctOrientation ctxO chainO ⟨0, 1, 0⟩ stZero).angles 1 := by
  refine ⟨by decide, ?_, ?_, ?_, ?_⟩ <;>
    norm_num [correctOrientation, currentOrientation, orientStep, axisWorld, localAxis,
      axisOf, limitOf, kindOf, normalizeV, vlen, V3.sub, V3.dot, V3.cross, V3.smul,
      V3.lenSq, clampQ, signQ, applyLimit, setFn, setOpt, isRotB, orientationWeight,
      ctxO, oneOracle, constWorld, stZero, qzero, noPrev, treeO, chainO, max_def, min_def]

/-- Claim C8 (amended): in every solve iteration the orientation pass runs
after the sweep because orientationWeight is positive; it is the identity
when the drift dot is at least 0.98; under drift it touches only the last
two raw chain entries, skipping any of them whose kind is not revolute or
continuous rather than reaching further back; a corrected joint receives the
limit-clamped angle moved by sign times 0.02 times orientationWeight. -/
theorem orientation_correction_semantics :
    (∀ (c : SolveCtx) (chain : List ChainEntry) (io : V3) (st : SolverSt),
       ¬ V3.dot (currentOrientation c st) io < 49/50 →
       correctOrientation c chain io st = st) ∧
    (∀ (c : SolveCtx) (chain : List ChainEntry) (io : V3) (st : SolverSt) (i : Nat),
       (∀ e ∈ chain.drop (chain.length - 2), e.joint ≠ i) →
       (correctOrientation c chain io st).angles i = st.angles i) ∧
    (∀ (c : SolveCtx) (io co : V3) (st : SolverSt) (e : ChainEntry),
       isRotB (kindOf c.tree e.joint) = false → orientStep c io co st e = st) ∧
    (∀ (c : SolveCtx) (io co : V3) (st : SolverSt) (e : ChainEntry),
       isRotB (kindOf c.tree e.joint) = true →
       (orientStep c io co st e).angles e.joint =
         applyLimit (limitOf c.tree e.joint)
           (st.angles e.joint +
             signQ (V3.dot (V3.cross co io) (axisWorld c st e.joint)) * (1/50) *
               orientationWeight)) ∧
    (∀ (c : SolveCtx) (io : V3) (st : SolverSt) (l : List ChainEntry) (e1 e2 : ChainEntry),
       V3.dot (currentOrientation c st) io < 49/50 →
       correctOrientation c (l ++ [e1, e2]) io st =
         orientStep c io (currentOrientation c st)
           (orientStep c io (currentOrientation c st) st e1) e2) ∧
    (∀ (c : SolveCtx) (chain : List ChainEntry) (io : V3) (fuel : Nat) (st : SolverSt),
       solveLoop c chain io (fuel + 1) st =
         if vdist c.O (effPos c (correctOrientation c chain io (sweepOnce c chain st).1))
              c.targetPos < tolerance ∨ (sweepOnce c chain st).2 < 1/200 then
           correctOrientation c chain io (sweepOnce c chain st).1
         else solveLoop c chain io fuel (correctOrientation c chain io (sweepOnce c chain st).1)) ∧
    orientationWeight = 3/10 := by
  refine ⟨?_, ?_, ?_, ?_, ?_, ?_, rfl⟩
  · intro c chain io st h
    simp only [correctOrientation, if_neg h]
  · intro c chain io st i h
    by_cases hd : V3.dot (currentOrientation c st) io < 49/50
    · simp only [correctOrientation, if_pos hd]
      refine foldl_preserve_mem (fun s : SolverSt => s.angles i = st.angles i)
        (orientStep c io (currentOrientation c st)) (chain.drop (chain.length - 2))
        ?_ st rfl
      intro s e he hp
      rw [orientStep_angles_ne c io (currentOrientation c st) s e i
        (fun x => (h e he) x.symm)]
      exact hp
    · simp only [correctOrientation, if_neg hd]
  · intro c io co st e h
    simp [orientStep, h]
  · intro c io co st e h
    have hx : ¬ isRotB (kindOf c.tree e.joint) = false := by simp [h]
    simp [orientStep, hx, setFn]
  · intro c io st l e1 e2 h
    simp only [correctOrientation, if_pos h]
    have hlen : (l ++ [e1, e2]).length - 2 = l.length := by simp
    rw [hlen, List.drop_left]
    simp
  · intro c chain io fuel st
    rw [solveLoop]
    have hw : (0 : ℚ) < orientationWeight := by norm_num [orientationWeight]
    simp only [gt_iff_lt, if_pos hw]

/-- Witness for the amended claim C8: no drift leaves the state unchanged,
and under drift the pass is exactly the two orientation steps on the final
two chain entries. -/
theorem orientation_correction_semantics_witness :
    correctOrientation ctxO chainO ⟨1, 0, 0⟩ stZero = stZero ∧
    correctOrientation ctxO chainO ⟨0, 1, 0⟩ stZero =
      orientStep ctxO ⟨0, 1, 0⟩ (currentOrientation ctxO stZero)
        (orientStep ctxO ⟨0, 1, 0⟩ (currentOrientation ctxO stZero) stZero ⟨2, 0⟩) ⟨3, 0⟩ :=
  ⟨orientation_correction_semantics.1 ctxO chainO ⟨1, 0, 0⟩ stZero
      (by norm_num [currentOrientation, normalizeV, vlen, V3.dot, V3.smul, V3.lenSq,
        ctxO, oneOracle, constWorld, stZero, qzero]),
   orientation_correction_semantics.2.2.2.2.1 ctxO ⟨0, 1, 0⟩ stZero [⟨1, 0⟩] ⟨2, 0⟩ ⟨3, 0⟩
      (by norm_num [currentOrientation, normalizeV, vlen, V3.dot, V3.smul, V3.lenSq,
        ctxO, oneOracle, constWorld, stZero, qzero])⟩

/-- A CCD step keeps the angle of a joint with a positive-range limit either
untouched since the given baseline or inside the limit range. -/
theorem ccdJointStep_limit_pres (c : SolveCtx) (i : Nat) (lo hi a0 : ℚ)
    (hl : limitOf c.tree i = some ⟨lo, hi⟩) (hr : hi - lo > 0)
    (acc : SolverSt × ℚ) (e : ChainEntry)
    (h : acc.1.angles i = a0 ∨ (lo ≤ acc.1.angles i ∧ acc.1.angles i ≤ hi)) :
    (ccdJointStep c acc e).1.angles i = a0 ∨
      (lo ≤ (ccdJointStep c acc e).1.angles i ∧ (ccdJointStep c acc e).1.angles i ≤ hi) := by
  by_cases he : e.joint = i
  · subst he
    rcases ccdJointStep_self_cases c acc e with hcase | hcase
    · rw [hcase]; exact h
    · rw [hcase]
      right
      unfold ccdNewAngle
      rw [hl]
      exact applyLimit_mem ⟨lo, hi⟩ (smoothedAngle c acc.1 e.joint) hr
  · rw [ccdJointStep_angles_ne c acc e i (fun x => he x.symm)]
    exact h

/-- An orientation step keeps the angle of a joint with a positive-range
limit either untouched since the given baseline or inside the limit range. -/
theorem orientStep_limit_pres (c : SolveCtx) (io co : V3) (i : Nat) (lo hi a0 : ℚ)
    (hl : limitOf c.tree i = some ⟨lo, hi⟩) (hr : hi - lo > 0)
    (st : SolverSt) (e : ChainEntry)
    (h : st.angles i = a0 ∨ (lo ≤ st.angles i ∧ st.angles i ≤ hi)) :
    (orientStep c io co st e).angles i = a0 ∨
      (lo ≤ (orientStep c io co st e).angles i ∧ (orientStep c io co st e).angles i ≤ hi) := by
  by_cases he : e.joint = i
  · subst he
    rcases orientStep_self c io co st e with hcase | hcase
    · rw [hcase]; exact h
    · rw [hcase, hl]
      right
      exact applyLimit_mem ⟨lo, hi⟩ _ hr
  · rw [orientStep_angles_ne c io co st e i (fun x => he x.symm)]
    exact h

/-- The whole sweep preserves the limit containment property. -/
theorem sweepOnce_limit_pres (c : SolveCtx) (chain : List ChainEntry) (i : Nat)
    (lo hi a0 : ℚ) (hl : limitOf c.tree i = some ⟨lo, hi⟩) (hr : hi - lo > 0)
    (st : SolverSt) (h : st.angles i = a0 ∨ (lo ≤ st.angles i ∧ st.angles i ≤ hi)) :
    (sweepOnce c chain st).1.angles i = a0 ∨
      (lo ≤ (sweepOnce c chain st).1.angles i ∧ (sweepOnce c chain st).1.angles i ≤ hi) := by
  unfold sweepOnce
  exact foldl_preserve
    (fun acc : SolverSt × ℚ =>
      acc.1.angles i = a0 ∨ (lo ≤ acc.1.angles i ∧ acc.1.angles i ≤ hi))
    (ccdJointStep c)
    (fun s e hp => ccdJointStep_limit_pres c i lo hi a0 hl hr s e hp)
    chain.reverse (st, 0) h

/-- The orientation pass preserves the limit containment property. -/
theorem correctOrientation_limit_pres (c : SolveCtx) (chain : List ChainEntry) (io : V3)
    (i : Nat) (lo hi a0 : ℚ) (hl : limitOf c.tree i = some ⟨lo, hi⟩) (hr : hi - lo > 0)
    (st : SolverSt) (h : st.angles i = a0 ∨ (lo ≤ st.angles i ∧ st.angles i ≤ hi)) :
    (correctOrientation c chain io st).angles i = a0 ∨
      (lo ≤ (correctOrientation c chain io st).angles i ∧
        (correctOrientation c chain io st).angles i ≤ hi) := by
  by_cases hd : V3.dot (currentOrientation c st) io < 49/50
  · simp only [correctOrientation, if_pos hd]
    exact foldl_preserve
      (fun s : SolverSt => s.angles i = a0 ∨ (lo ≤ s.angles i ∧ s.angles i ≤ hi))
      (orientStep c io (currentOrientation c st))
      (fun s e hp => orientStep_limit_pres c io (currentOrientation c st) i lo hi a0 hl hr s e hp)
      (chain.drop (chain.length - 2)) st h
  · simp only [correctOrientation, if_neg hd]
    exact h

/-- The bounded iteration loop preserves the limit containment property. -/
theorem solveLoop_limit_pres (c : SolveCtx) (chain : List ChainEntry) (io : V3)
    (i : Nat) (lo hi a0 : ℚ) (hl : limitOf c.tree i = some ⟨lo, hi⟩) (hr : hi - lo > 0) :
    ∀ (fuel : Nat) (st : SolverSt),
      (st.angles i = a0 ∨ (lo ≤ st.angles i ∧ st.angles i ≤ hi)) →
      ((solveLoop c chain io fuel st).angles i = a0 ∨
        (lo ≤ (solveLoop c chain io fuel st).angles i ∧
          (solveLoop c chain io fuel st).angles i ≤ hi)) := by
  intro fuel
  induction fuel with
  | zero => intro st h; simpa [solveLoop] using h
  | succ f ih =>
    intro st h
    rw [solveLoop]
    have hsw := sweepOnce_limit_pres c chain i lo hi a0 hl hr st h
    split_ifs with h1 h2 h2
    · exact correctOrientation_limit_pres c chain io i lo hi a0 hl hr _ hsw
    · exact ih _ (correctOrientation_limit_pres c chain io i lo hi a0 hl hr _ hsw)
    · exact hsw
    · exact ih _ hsw

/-- Claim C2 (confirmed): during solve every mutation of a joint carrying a
limit with positive range lands inside the limit interval, both in the
positional sweep and in the orientation pass; a joint whose limit is absent
or whose range is not positive is never clamped; and after a whole solve
call the angle of a limited joint is either untouched or inside its
limits. -/
theorem solve_respects_limits :
    (∀ (c : SolveCtx) (acc : SolverSt × ℚ) (e : ChainEntry) (lo hi : ℚ),
       limitOf c.tree e.joint = some ⟨lo, hi⟩ → hi - lo > 0 →
       ((ccdJointStep c acc e).1.angles e.joint = acc.1.angles e.joint ∨
        (lo ≤ (ccdJointStep c acc e).1.angles e.joint ∧
          (ccdJointStep c acc e).1.angles e.joint ≤ hi))) ∧
    (∀ (c : SolveCtx) (io co : V3) (st : SolverSt) (e : ChainEntry) (lo hi : ℚ),
       limitOf c.tree e.joint = some ⟨lo, hi⟩ → hi - lo > 0 →
       ((orientStep c io co st e).angles e.joint = st.angles e.joint ∨
        (lo ≤ (orientStep c io co st e).angles e.joint ∧
          (orientStep c io co st e).angles e.joint ≤ hi))) ∧
    ((∀ x : ℚ, applyLimit none x = x) ∧
     (∀ (l : Limit) (x : ℚ), ¬ l.upper - l.lower > 0 → applyLimit (some l) x = x)) ∧
    (∀ (c : SolveCtx) (chain : List ChainEntry) (io : V3) (st : SolverSt) (i : Nat)
       (lo hi : ℚ), limitOf c.tree i = some ⟨lo, hi⟩ → hi - lo > 0 →
       ((solve c chain io st).angles i = st.angles i ∨
        (lo ≤ (solve c chain io st).angles i ∧ (solve c chain io st).angles i ≤ hi))) := by
  refine ⟨?_, ?_, ⟨applyLimit_none, applyLimit_nonpos⟩, ?_⟩
  · intro c acc e lo hi hl hr
    rcases ccdJointStep_self_cases c acc e with hcase | hcase
    · rw [hcase]; exact Or.inl rfl
    · rw [hcase]
      right
      unfold ccdNewAngle
      rw [hl]
      exact applyLimit_mem ⟨lo, hi⟩ _ hr
  · intro c io co st e lo hi hl hr
    rcases orientStep_self c io co st e with hcase | hcase
    · rw [hcase]; exact Or.inl rfl
    · rw [hcase, hl]
      right
      exact applyLimit_mem ⟨lo, hi⟩ _ hr
  · intro c chain io st i lo hi hl hr
    unfold solve
    split_ifs with hc
    · exact Or.inl rfl
    · exact solveLoop_limit_pres c chain io i lo hi (st.angles i) hl hr maxIterations st
        (Or.inl rfl)

/-- Witness for claim C2 on the concrete limited joint of treeL. -/
theorem solve_respects_limits_witness :
    (solve ctxL [⟨1, 0⟩] ⟨0, 0, 1⟩ stZero).angles 1 = stZero.angles 1 ∨
    ((-1 : ℚ) ≤ (solve ctxL [⟨1, 0⟩] ⟨0, 0, 1⟩ stZero).angles 1 ∧
      (solve ctxL [⟨1, 0⟩] ⟨0, 0, 1⟩ stZero).angles 1 ≤ 1) :=
  solve_respects_limits.2.2.2 ctxL [⟨1, 0⟩] ⟨0, 0, 1⟩ stZero 1 (-1) 1
    (by norm_num [limitOf, ctxL, treeL]) (by norm_num)

/-- Claim C10 (confirmed): updateEffectorPositions moves the current target
to the world origin of the selected effector joint, does nothing when either
the target or the selection is absent, while the tip solve() tracks is the
world image of the cached endPoint whenever one is stored; hence after the
refresh the target differs from the tracked tip exactly by that offset, and
a configuration with a nonzero cached endPoint where the two disagree
exists. -/
theorem updateEffectorPositions_semantics :
    (∀ (W : World) (st : CtrlSt) (tgt : TargetObj) (sel : Nat),
       st.currentTarget = some tgt → st.selectedEffector = some sel →
       (updateEffectorPositions W st).currentTarget =
         some ⟨tgt.id, W.worldPos st.angles sel⟩) ∧
    (∀ (W : World) (st : CtrlSt),
       st.currentTarget = none ∨ st.selectedEffector = none →
       updateEffectorPositions W st = st) ∧
    (∀ (W : World) (eff : Effector) (ang : Nat → ℚ) (e : V3),
       eff.endPoint? = some e →
       getEffectorEndPoint W eff ang = W.localToWorld ang eff.idx e) ∧
    (∃ (W : World) (st : CtrlSt) (sel : Nat),
       st.currentTarget.isSome = true ∧ st.selectedEffector = some sel ∧
       (st.endPoints sel).isSome = true ∧
       (updateEffectorPositions W st).currentTarget.map TargetObj.pos ≠
         some (getEffectorEndPoint W ⟨sel, st.endPoints sel⟩ st.angles)) := by
  refine ⟨?_, ?_, ?_, ?_⟩
  · intro W st tgt sel h1 h2
    simp [updateEffectorPositions, h1, h2]
  · intro W st h
    rcases h with h | h
    · cases hse : st.selectedEffector <;> simp [updateEffectorPositions, h, hse]
    · cases hct : st.currentTarget <;> simp [updateEffectorPositions, h, hct]
  · intro W eff ang e h
    simp [getEffectorEndPoint, h]
  · refine ⟨constWorld, stRefresh, 1, by norm_num [stRefresh, initCtrl], rfl, rfl, ?_⟩
    norm_num [updateEffectorPositions, getEffectorEndPoint, stRefresh, initCtrl, constWorld,
      qzero]

/-- Witness for claim C10 at the concrete refresh state. -/
theorem updateEffectorPositions_semantics_witness :
    (updateEffectorPositions constWorld stRefresh).currentTarget =
      some ⟨(0 : Nat), constWorld.worldPos stRefresh.angles 1⟩ := by
  have h := updateEffectorPositions_semantics.1 constWorld stRefresh ⟨0, ⟨0, 0, 0⟩⟩ 1 rfl rfl
  simpa using h

/-- Under the invariant, cleanup empties the scene bookkeeping. -/
theorem cleanup_scene_nil (st : CtrlSt) (h : CtrlInv st) :
    (cleanupCurrentSolver st).sceneIK = [] := by
  obtain ⟨h1, h2, h3, h4, h5⟩ := h
  rcases st with ⟨tr, an, ep, en, dr, se, so, sl, cs, ct, cv, sc, ni, mv, go, ig⟩
  cases ct with
  | none =>
    cases cv with
    | none => simpa [cleanupCurrentSolver, trackedIds] using h1
    | some v => simp at h3
  | some tg =>
    cases cv with
    | none => simp at h3
    | some v =>
      simp only [trackedIds] at h1
      simp only [cleanupCurrentSolver, h1]
      simp [List.erase_cons_head]

/-- Cleanup preserves the invariant. -/
theorem cleanup_inv (st : CtrlSt) (h : CtrlInv st) : CtrlInv (cleanupCurrentSolver st) := by
  have hnil := cleanup_scene_nil st h
  have hcore := cleanup_core st
  unfold CtrlInv trackedIds
  rw [hnil, hcore.1, hcore.2.1, hcore.2.2.1]
  simp

/-- The invariant only reads the scene list, the id counter and the three
tracked references, so it transports along states agreeing there. -/
theorem CtrlInv_transport (st st2 : CtrlSt) (h : CtrlInv st)
    (hsc : st2.sceneIK = st.sceneIK) (hni : st2.nextId = st.nextId)
    (hct : st2.currentTarget = st.currentTarget)
    (hcv : st2.currentTargetVisual = st.currentTargetVisual)
    (hcs : st2.currentSolver = st.currentSolver) :
    CtrlInv st2 := by
  obtain ⟨h1, h2, h3, h4, h5⟩ := h
  unfold CtrlInv trackedIds
  rw [hsc, hni, hct, hcv, hcs]
  exact ⟨h1, h2, h3, h4, h5⟩

/-- createSolverForJoint preserves the invariant. -/
theorem create_inv (O : NumOracle) (W : World) (st : CtrlSt) (j : Nat) (h : CtrlInv st) :
    CtrlInv (createSolverForJoint O W st j).2 := by
  have hnil := cleanup_scene_nil st h
  have hcore := cleanup_core st
  simp only [createSolverForJoint]
  split_ifs with hc
  · exact CtrlInv_transport _ _ (cleanup_inv st h) rfl rfl rfl rfl rfl
  · refine ⟨?_, ?_, ?_, ?_, ?_⟩
    · simp [trackedIds, hnil]
    · intro i hi
      simp [hnil] at hi ⊢
      rcases hi with rfl | rfl <;> omega
    · simp
    · simp
    · simp

/-- setEnabled preserves the invariant. -/
theorem setEnabled_inv (st : CtrlSt) (b : Bool) (h : CtrlInv st) :
    CtrlInv (setEnabled st b) := by
  rcases st with ⟨tr, an, ep, en, dr, se, so, sl, cs, ct, cv, sc, ni, mv, go, ig⟩
  obtain ⟨h1, h2, h3, h4, h5⟩ := h
  cases ct <;> cases cv <;> cases b <;>
    simp only [setEnabled, Bool.false_eq_true, if_true, if_false] <;>
    first
      | (apply cleanup_inv
         refine ⟨?_, ?_, ?_, ?_, ?_⟩ <;> simp_all [trackedIds])
      | (refine ⟨?_, ?_, ?_, ?_, ?_⟩ <;> simp_all [trackedIds])

/-- updateRobot preserves the invariant. -/
theorem updateRobot_inv (st : CtrlSt) (t : List Node) (ang : Nat → ℚ) (h : CtrlInv st) :
    CtrlInv (updateRobot st t ang) := by
  have hmid : CtrlInv { st with tree := t, angles := ang } :=
    CtrlInv_transport st _ h rfl rfl rfl rfl rfl
  have hcl := cleanup_inv _ hmid
  exact CtrlInv_transport _ _ hcl rfl rfl rfl rfl rfl

/-- Every lifecycle operation preserves the invariant. -/
theorem applyOp_inv (O : NumOracle) (W : World) (st : CtrlSt) (op : Op) (h : CtrlInv st) :
    CtrlInv (applyOp O W st op) := by
  cases op with
  | create j => exact create_inv O W st j h
  | cleanup => exact cleanup_inv st h
  | enable b => exact setEnabled_inv st b h
  | swap t ang => exact updateRobot_inv st t ang h

/-- The constructed controller satisfies the invariant. -/
theorem initCtrl_inv (t : List Node) (ang : Nat → ℚ) : CtrlInv (initCtrl t ang) := by
  refine ⟨rfl, ?_, ?_, ?_, ?_⟩ <;> simp [initCtrl, trackedIds]

/-- Freshly created scene objects never collide with previously tracked
ones. -/
theorem create_fresh (O : NumOracle) (W : World) (st : CtrlSt) (j : Nat) (h : CtrlInv st) :
    ∀ i ∈ (createSolverForJoint O W st j).2.sceneIK, i ∉ st.sceneIK := by
  intro i hi hmem
  have hnil := cleanup_scene_nil st h
  have hcore := cleanup_core st
  obtain ⟨h1, h2, h3, h4, h5⟩ := h
  have hlt := h2 i hmem
  simp only [createSolverForJoint] at hi
  split_ifs at hi with hc
  · rw [hnil] at hi
    simp at hi
  · simp only [hnil] at hi
    rw [hcore.2.2.2.2.2.1] at hi
    simp at hi
    rcases hi with rfl | rfl <;> omega

/-- Claim C4 (confirmed): under any sequence of createSolverForJoint,
cleanupCurrentSolver, setEnabled and updateRobot calls the controller keeps
the bookkeeping invariant, so it tracks at most one target and one visual
(at most two scene objects) plus at most one solver; creating a new solver
first disposes the previous one, so the new scene objects are disjoint from
everything tracked before, and cleanup always empties the scene and drops
all three references. -/
theorem single_solver_invariant :
    (∀ (O : NumOracle) (W : World) (t : List Node) (ang : Nat → ℚ) (ops : List Op),
       CtrlInv (applyOps O W (initCtrl t ang) ops)) ∧
    (∀ (O : NumOracle) (W : World) (st : CtrlSt), CtrlInv st →
       st.sceneIK.length ≤ 2 ∧
       ∀ (j : Nat), ∀ i ∈ (createSolverForJoint O W st j).2.sceneIK, i ∉ st.sceneIK) ∧
    (∀ (st : CtrlSt), CtrlInv st →
       (cleanupCurrentSolver st).sceneIK = [] ∧
       (cleanupCurrentSolver st).currentSolver = none ∧
       (cleanupCurrentSolver st).currentTarget = none ∧
       (cleanupCurrentSolver st).currentTargetVisual = none) := by
  refine ⟨?_, ?_, ?_⟩
  · intro O W t ang ops
    exact foldl_preserve CtrlInv (applyOp O W) (fun s op hp => applyOp_inv O W s op hp)
      ops (initCtrl t ang) (initCtrl_inv t ang)
  · intro O W st h
    constructor
    · obtain ⟨h1, _, _, _, _⟩ := h
      rw [h1]
      unfold trackedIds
      cases st.currentTarget <;> cases st.currentTargetVisual <;> simp
    · intro j
      exact create_fresh O W st j h
  · intro st h
    have hcore := cleanup_core st
    exact ⟨cleanup_scene_nil st h, hcore.1, hcore.2.1, hcore.2.2.1⟩

/-- Witness for claim C4 at the freshly constructed controller. -/
theorem single_solver_invariant_witness :
    (initCtrl treeR qzero).sceneIK.length ≤ 2 ∧
    (cleanupCurrentSolver (initCtrl treeR qzero)).sceneIK = [] :=
  ⟨(single_solver_invariant.2.1 oneOracle constWorld (initCtrl treeR qzero)
      (single_solver_invariant.1 oneOracle constWorld treeR qzero [])).1,
   (single_solver_invariant.2.2 (initCtrl treeR qzero)
      (single_solver_invariant.1 oneOracle constWorld treeR qzero [])).1⟩

/-- Well-formed parent pointers decrease the index. -/
theorem wf_parent_lt (t : List Node) (hwf : wfParentB t = true) (i p : Nat)
    (hp : parentOf t i = some p) (hi : i < t.length) : p < i := by
  have hall := List.all_eq_true.mp hwf i (List.mem_range.mpr hi)
  rw [hp] at hall
  exact of_decide_eq_true hall

/-- A movable starting joint with a parent appears in its own chain when
includeEndEffector is set. -/
theorem buildIKChain_contains_self (t : List Node) (ang : Nat → ℚ) (j p : Nat)
    (hm : isMovableNode t[j]? = true) (hp : parentOf t j = some p) :
    j ∈ (buildIKChain t ang j true).map ChainEntry.joint := by
  cases hg : t[j]? with
  | none => rw [hg] at hm; simp [isMovableNode] at hm
  | some n =>
    have hj : j < t.length := (List.getElem?_eq_some.mp hg).1
    obtain ⟨f, hf⟩ : ∃ f, t.length = f + 1 := ⟨t.length - 1, by omega⟩
    have hpn : n.parent? = some p := by simpa [parentOf, hg] using hp
    have hcond : (n.isJoint && !(n.kind == JointKind.fixed)) = true := by
      rw [hg] at hm
      exact hm
    have hstart : startCursor t j true = some j := rfl
    unfold buildIKChain
    rw [hstart, hf, chainWalk_eq_step t ang f j n p hg hpn, if_pos hcond]
    simp

/-- Under well-formed parent pointers, the starting joint never appears in
its own chain when includeEndEffector is not set, because the walk starts at
the parent and only visits smaller indices. -/
theorem buildIKChain_excludes_self (t : List Node) (ang : Nat → ℚ) (j : Nat)
    (hwf : wfParentB t = true) (hj : j < t.length) :
    j ∉ (buildIKChain t ang j false).map ChainEntry.joint := by
  intro hmem
  unfold buildIKChain startCursor at hmem
  rw [if_neg (by simp)] at hmem
  cases hp : parentOf t j with
  | none => rw [hp] at hmem; simp [chainWalk] at hmem
  | some p =>
    rw [hp] at hmem
    simp only [List.mem_map] at hmem
    obtain ⟨e, he, hej⟩ := hmem
    have h1 : e.joint ≤ p := chainWalk_mem_le t ang hwf t.length p e he
    have h2 : p < j := wf_parent_lt t hwf j p hp hj
    omega

/-- The selection, drag and angle fields pass unchanged through
createSolverForJoint, while shouldLock is set from hasMovableChildren. -/
theorem create_preserves (O : NumOracle) (W : World) (st : CtrlSt) (j : Nat) :
    (createSolverForJoint O W st j).2.enabled = st.enabled ∧
    (createSolverForJoint O W st j).2.isDragging = st.isDragging ∧
    (createSolverForJoint O W st j).2.selectedEffector = st.selectedEffector ∧
    (createSolverForJoint O W st j).2.selectedOrig = st.selectedOrig ∧
    (createSolverForJoint O W st j).2.angles = st.angles ∧
    (createSolverForJoint O W st j).2.tree = st.tree ∧
    (createSolverForJoint O W st j).2.shouldLock = !(hasMovableChildren st.tree j) := by
  obtain ⟨hs, ht2, hv, htr, han, hni, hen, hep, hdr, hse, hso, hsl, hmv⟩ := cleanup_core st
  simp only [createSolverForJoint]
  split_ifs with hc <;>
    exact ⟨by simp only [hen], by simp only [hdr], by simp only [hse], by simp only [hso],
      by simp only [han], by simp only [htr], by simp only [htr]⟩

/-- The chain of a successfully created solver is the chain built over the
unchanged robot with inclusion decided by hasMovableChildren. -/
theorem createSolver_some_chain (O : NumOracle) (W : World) (st : CtrlSt) (j : Nat)
    (s : SolverData) (h : (createSolverForJoint O W st j).1 = some s) :
    s.chain = buildIKChain st.tree st.angles j (hasMovableChildren st.tree j) := by
  obtain ⟨hs, ht2, hv, htr, han, hni, hen, hep, hdr, hse, hso, hsl, hmv⟩ := cleanup_core st
  simp only [createSolverForJoint] at h
  split_ifs at h with hc
  replace h := Option.some.inj h
  subst h
  simp only [htr, han]

/-- Fields established by onMouseDown on a hit while enabled. -/
theorem onMouseDown_fields (O : NumOracle) (W : World) (st : CtrlSt) (j : Nat) (gp : V3)
    (hen0 : st.enabled = true) :
    (onMouseDown O W st (some j) gp).enabled = true ∧
    (onMouseDown O W st (some j) gp).isDragging = true ∧
    (onMouseDown O W st (some j) gp).selectedEffector = some j ∧
    (onMouseDown O W st (some j) gp).selectedOrig = some (st.angles j) ∧
    (onMouseDown O W st (some j) gp).shouldLock = !(hasMovableChildren st.tree j) ∧
    (onMouseDown O W st (some j) gp).angles = st.angles := by
  have hne : ¬ st.enabled = false := by simp [hen0]
  simp only [onMouseDown, if_neg hne]
  obtain ⟨hc1, hc2, hc3, hc4, hc5, hc6, hc7⟩ := create_preserves O W
    { st with
      selectedEffector := some j
      isDragging := true
      selectedOrig := some (st.angles j)
      initialGrabPoint := gp } j
  split <;>
    refine ⟨?_, ?_, ?_, ?_, ?_, ?_⟩ <;>
      (simp only [hc1, hc2, hc3, hc4, hc5, hc6, hc7] <;> simp [hen0])

/-- One onMouseMove step while dragging a locked joint preserves the drag
state and re-establishes the snapshotted angle. -/
theorem onMouseMove_locked_step (O : NumOracle) (W : World) (st : CtrlSt) (gp : V3)
    (j : Nat) (a : ℚ) (hen : st.enabled = true) (hdr : st.isDragging = true)
    (hse : st.selectedEffector = some j) (hso : st.selectedOrig = some a)
    (hsl : st.shouldLock = true) (han : st.angles j = a) :
    (onMouseMove O W st gp).enabled = true ∧
    (onMouseMove O W st gp).isDragging = true ∧
    (onMouseMove O W st gp).selectedEffector = some j ∧
    (onMouseMove O W st gp).selectedOrig = some a ∧
    (onMouseMove O W st gp).shouldLock = true ∧
    (onMouseMove O W st gp).angles j = a := by
  have hne : ¬ st.enabled = false := by simp [hen]
  have hcond : (st.isDragging && st.selectedEffector.isSome) = true := by simp [hdr, hse]
  simp only [onMouseMove, if_neg hne, if_pos hcond]
  rcases hct : st.currentTarget with _ | tgt <;> rcases hcs : st.currentSolver with _ | sol <;>
    simp only [hct, hcs, hse] <;>
      first
        | exact ⟨hen, hdr, hse, hso, hsl, han⟩
        | (refine ⟨?_, ?_, ?_, ?_, ?_, ?_⟩ <;> simp [hen, hdr, hse, hso, hsl, han, setFn])

/-- Claim C3 (confirmed): for a movable selected joint with a parent in a
well-formed tree, the joint is in the chain of a successfully created solver
iff it has a movable descendant; shouldLock is the negation of that test;
and when the joint has no movable descendants, after a mouse-down and any
sequence of mouse-move steps the joint angle equals its angle at the start
of the drag, because each step re-applies the snapshotted angle after
solve. -/
theorem effector_inclusion_and_lock (O : NumOracle) (W : World) (st : CtrlSt) (j : Nat)
    (hwf : wfParentB st.tree = true) (hm : isMovableNode st.tree[j]? = true)
    (hp : parentOf st.tree j ≠ none) :
    (∀ s, (createSolverForJoint O W st j).1 = some s →
       ((j ∈ s.chain.map ChainEntry.joint) ↔ hasMovableChildren st.tree j = true)) ∧
    (createSolverForJoint O W st j).2.shouldLock = !(hasMovableChildren st.tree j) ∧
    (hasMovableChildren st.tree j = false → st.enabled = true →
       ∀ (gp : V3) (moves : List V3),
         (List.foldl (onMouseMove O W) (onMouseDown O W st (some j) gp) moves).angles j =
           st.angles j) := by
  have hj : j < st.tree.length := by
    cases hg : st.tree[j]? with
    | none => rw [hg] at hm; simp [isMovableNode] at hm
    | some n => exact (List.getElem?_eq_some.mp hg).1
  refine ⟨?_, (create_preserves O W st j).2.2.2.2.2.2, ?_⟩
  · intro s hs
    rw [createSolver_some_chain O W st j s hs]
    cases hch : hasMovableChildren st.tree j with
    | true =>
      obtain ⟨p, hp2⟩ := Option.ne_none_iff_exists'.mp hp
      simp [buildIKChain_contains_self st.tree st.angles j p hm hp2]
    | false =>
      simp [buildIKChain_excludes_self st.tree st.angles j hwf hj]
  · intro hch hen gp moves
    have hdown := onMouseDown_fields O W st j gp hen
    have hfold := foldl_preserve
      (fun s : CtrlSt => s.enabled = true ∧ s.isDragging = true ∧
        s.selectedEffector = some j ∧ s.selectedOrig = some (st.angles j) ∧
        s.shouldLock = true ∧ s.angles j = st.angles j)
      (onMouseMove O W)
      (fun s gp2 hp2 => onMouseMove_locked_step O W s gp2 j (st.angles j)
        hp2.1 hp2.2.1 hp2.2.2.1 hp2.2.2.2.1 hp2.2.2.2.2.1 hp2.2.2.2.2.2)
      moves (onMouseDown O W st (some j) gp)
      ⟨hdown.1, hdown.2.1, hdown.2.2.1, hdown.2.2.2.1,
       by rw [hdown.2.2.2.2.1, hch]; rfl, by rw [hdown.2.2.2.2.2]⟩
    exact hfold.2.2.2.2.2

/-- Witness for claim C3: dragging the terminal revolute joint of the
two-joint tree leaves its angle at the starting value. -/
theorem effector_inclusion_and_lock_witness :
    (List.foldl (onMouseMove oneOracle constWorld)
        (onMouseDown oneOracle constWorld
          ({ initCtrl treeR qzero with enabled := true }) (some 2) ⟨0, 0, 0⟩)
        [⟨1, 0, 0⟩]).angles 2 =
      ({ initCtrl treeR qzero with enabled := true } : CtrlSt).angles 2 :=
  (effector_inclusion_and_lock oneOracle constWorld
      ({ initCtrl treeR qzero with enabled := true }) 2
      (by decide) (by decide) (by decide)).2.2 (by decide) rfl ⟨0, 0, 0⟩ [⟨1, 0, 0⟩]
